import Mathlib

/-!
Verification development for the pyptex fragment-extraction and caching
engine (file src/pyptex/__init__.py).

The development shallowly embeds the core of the program:

* the tokenizer, i.e. the substitution semantics of the regular expression
  pypparser together with the closure do_work inside pyptex.process;
* the dependency table operations pyptex.dep and pyptex.resolvedeps;
* the value renderer pyptex.mylatex together with pyptex.__setupfig__,
  pyptex.genname and pyptex.showall;
* the execution wrapper pyptex.run, parameterized by an oracle standing for
  the external Python runtime (compile, eval, exec);
* the cache manager pyptex.compile: cache loading with defaults, the scan
  pass, the validity decision, the cached-substitution and the
  fresh-execution paths, and the final persistence step.

External collaborators (the Python runtime, the filesystem stat calls and
the symbolic latex renderer) enter as explicit function parameters; all
definitions are otherwise translated from the source.
-/

namespace Pyptex

/-- Split a character list at the first newline, keeping the newline at the
end of the first component.  Mirrors the way the comment alternative of the
parsing regular expression consumes characters up to and including the end
of the line, and fails when no newline follows. -/
def splitAtNewline : List Char → Option (List Char × List Char)
  | [] => none
  | c :: rest =>
    if c = '\n' then some ([c], rest)
    else (splitAtNewline rest).map (fun p => (c :: p.1, p.2))

/-- Match of the first regex alternative, a comment: an unescaped percent
sign followed by the remainder of the line, newline included.  The previous
character of the original text is passed in for the lookbehind. -/
def matchComment (prev : Option Char) : List Char → Option (List Char × List Char)
  | '%' :: rest =>
    if prev = some '\\' then none
    else (splitAtNewline rest).map (fun p => ('%' :: p.1, p.2))
  | _ => none

/-- Match of the second regex alternative: the escaped marker, two at signs. -/
def matchEscape : List Char → Option (List Char)
  | '@' :: '@' :: rest => some rest
  | _ => none

/-- Match of the optional bracketed option tag.  When the text starts with an
opening bracket, the tag must be a run of ASCII letters closed by a bracket,
otherwise the whole fragment alternative fails (the regex fallback of not
taking the optional group would then require an opening brace where the
opening bracket stands, which cannot succeed). -/
def matchTag : List Char → Option (Option (List Char) × List Char)
  | '[' :: rest =>
    let p := rest.span Char.isAlpha
    match p.2 with
    | ']' :: rest2 => some (some p.1, rest2)
    | _ => none
  | s => some (none, s)

/-- Match of the single-brace fragment body: an opening brace, a nonempty
maximal run of non-brace characters, and a closing brace. -/
def matchSingle : List Char → Option (List Char × List Char)
  | '{' :: rest =>
    let p := rest.span (fun c => !(c == '{' || c == '}'))
    match p.1 with
    | [] => none
    | _ :: _ =>
      match p.2 with
      | '}' :: rest2 => some (p.1, rest2)
      | _ => none
  | _ => none

/-- Split a character list at the first occurrence of three closing braces,
dropping them; this is the lazy body of the triple-brace fragment form. -/
def splitAtTriple : List Char → Option (List Char × List Char)
  | '}' :: '}' :: '}' :: rest => some ([], rest)
  | c :: rest => (splitAtTriple rest).map (fun p => (c :: p.1, p.2))
  | [] => none

/-- Match of the triple-brace fragment body: three opening braces, a lazy
body that may contain braces and newlines, and the first three closing
braces. -/
def matchTriple : List Char → Option (List Char × List Char)
  | '{' :: '{' :: '{' :: rest => splitAtTriple rest
  | _ => none

/-- Match of the third regex alternative, a fragment: the at sign, the
optional option tag, and either the single-brace or the triple-brace body,
tried in that order.  Returns the body, the option string (an absent tag
yields the empty string, as does group(5) or '' in the source) and the
remaining text. -/
def matchFragment : List Char → Option (List Char × String × List Char)
  | '@' :: rest =>
    match matchTag rest with
    | none => none
    | some (tag, rest1) =>
      let o : String :=
        match tag with
        | none => ""
        | some t => String.mk t
      match matchSingle rest1 with
      | some (body, rest2) => some (body, o, rest2)
      | none =>
        match matchTriple rest1 with
        | some (body, rest2) => some (body, o, rest2)
        | none => none
  | _ => none

/-- Number of newline characters in a character list; this is the derivative
of the numpy cumulative line count ln used by pyptex.process. -/
def countNL (l : List Char) : Nat := l.countP (fun c => c == '\n')

/-- One full left-to-right substitution walk of the parsing regular
expression, the semantics of pypparser.sub(do_work, S) inside
pyptex.process.  The handler rho receives the fragment body, the number of
newlines strictly before the body, and the option tag, and returns the new
handler state and the replacement text; bump applies the line-count update
self.lc += ln(z1) - ln(z0) + 1 performed before each handler call.  The
fuel argument bounds the recursion; every step consumes at least one
character of the text, so fuel equal to the length of the text computes the
full walk. -/
def processGo {σ : Type} (rho : σ → String → Nat → String → σ × String)
    (bump : σ → Nat → σ) :
    Nat → List Char → Option Char → Nat → σ → σ × List Char
  | 0, s, _, _, st => (st, s)
  | Nat.succ fuel, s, prev, nl, st =>
    match s with
    | [] => (st, [])
    | c :: rest =>
      match matchComment prev (c :: rest) with
      | some p =>
        let q := processGo rho bump fuel p.2 (some '\n') (nl + countNL p.1) st
        (q.1, p.1 ++ q.2)
      | none =>
        match matchEscape (c :: rest) with
        | some r =>
          let q := processGo rho bump fuel r (some '@') nl st
          (q.1, '@' :: q.2)
        | none =>
          match matchFragment (c :: rest) with
          | some f =>
            let st1 := bump st (countNL f.1 + 1)
            let pr := rho st1 (String.mk f.1) nl f.2.1
            let q := processGo rho bump fuel f.2.2 (some '}') (nl + countNL f.1) pr.1
            (q.1, pr.2.data ++ q.2)
          | none =>
            let q := processGo rho bump fuel rest (some c)
              (nl + (if c == '\n' then 1 else 0)) st
            (q.1, c :: q.2)

/-- The visit sequence of a walk: the list of (body, preceding line count,
option tag) triples on which the handler is invoked, in order.  This is a
function of the text alone. -/
def visitsGo : Nat → List Char → Option Char → Nat → List (String × Nat × String)
  | 0, _, _, _ => []
  | Nat.succ fuel, s, prev, nl =>
    match s with
    | [] => []
    | c :: rest =>
      match matchComment prev (c :: rest) with
      | some p => visitsGo fuel p.2 (some '\n') (nl + countNL p.1)
      | none =>
        match matchEscape (c :: rest) with
        | some r => visitsGo fuel r (some '@') nl
        | none =>
          match matchFragment (c :: rest) with
          | some f =>
            (String.mk f.1, nl, f.2.1) :: visitsGo fuel f.2.2 (some '}') (nl + countNL f.1)
          | none =>
            visitsGo fuel rest (some c) (nl + (if c == '\n' then 1 else 0))

/-- The literal skeleton of a walk: the text before the first fragment,
paired with the list of literal segments that follow each fragment.  The
reassembled output of a walk is the skeleton interleaved with the
replacement strings. -/
def segsGo : Nat → List Char → Option Char → List Char × List (List Char)
  | 0, s, _ => (s, [])
  | Nat.succ fuel, s, prev =>
    match s with
    | [] => ([], [])
    | c :: rest =>
      match matchComment prev (c :: rest) with
      | some p =>
        let q := segsGo fuel p.2 (some '\n')
        (p.1 ++ q.1, q.2)
      | none =>
        match matchEscape (c :: rest) with
        | some r =>
          let q := segsGo fuel r (some '@')
          ('@' :: q.1, q.2)
        | none =>
          match matchFragment (c :: rest) with
          | some f =>
            let q := segsGo fuel f.2.2 (some '}')
            ([], q.1 :: q.2)
          | none =>
            let q := segsGo fuel rest (some c)
            (c :: q.1, q.2)

/-- Folding a handler over a visit sequence, collecting the replacement
texts.  This is the handler-facing behaviour of a walk. -/
def foldVisits {σ : Type} (rho : σ → String → Nat → String → σ × String)
    (bump : σ → Nat → σ) :
    σ → List (String × Nat × String) → σ × List (List Char)
  | st, [] => (st, [])
  | st, v :: vs =>
    let st1 := bump st (countNL v.1.data + 1)
    let pr := rho st1 v.1 v.2.1 v.2.2
    let q := foldVisits rho bump pr.1 vs
    (q.1, pr.2.data :: q.2)

/-- Interleave literal segments with replacement texts, replacement first. -/
def glue : List (List Char) → List (List Char) → List Char
  | s :: ss, r :: rs => r ++ s ++ glue ss rs
  | _, _ => []

/-- Visit sequence of a document text under the full-fuel walk, i.e. the
fragment sequence the scan pass and the substitution pass both traverse. -/
def visits (S : String) : List (String × Nat × String) :=
  visitsGo S.data.length S.data none 0

/-- The fragment source-text sequence collected by a scan of the text. -/
def scanFragments (S : String) : List String :=
  (visits S).map (fun v => v.1)

/-- Instrumentation of a handler: the same handler, additionally recording
the arguments of every invocation in a log. -/
def withLog {σ : Type} (rho : σ → String → Nat → String → σ × String) :
    σ × List (String × Nat × String) → String → Nat → String →
      (σ × List (String × Nat × String)) × String :=
  fun p b n o =>
    let pr := rho p.1 b n o
    ((pr.1, p.2 ++ [(b, n, o)]), pr.2)

/-- Line-count update lifted to an instrumented handler state. -/
def withLogBump {σ : Type} (bump : σ → Nat → σ) :
    σ × List (String × Nat × String) → Nat → σ × List (String × Nat × String) :=
  fun p n => (bump p.1 n, p.2)

/-- The sequence of handler invocations (body, preceding line count, option)
performed by a full walk of the text with the given handler, observed by
instrumenting the handler. -/
def handlerCalls {σ : Type} (rho : σ → String → Nat → String → σ × String)
    (bump : σ → Nat → σ) (st : σ) (S : String) : List (String × Nat × String) :=
  ((processGo (withLog rho) (withLogBump bump) S.data.length S.data none 0 (st, [])).1).2

/-! ### Dictionaries and dependency tables -/
/-- Lookup in an insertion-ordered association list, first occurrence wins;
the semantics of reading a Python dict entry. -/
def dlookup {α β : Type} [BEq α] : List (α × β) → α → Option β
  | [], _ => none
  | p :: rest, k => if p.1 == k then some p.2 else dlookup rest k

/-- Dictionary update d[k] = v of an insertion-ordered association list:
overwrite in place when the key is present, append otherwise, exactly as a
Python dict assignment behaves. -/
def dictUpdate {α β : Type} [BEq α] (d : List (α × β)) (k : α) (v : β) :
    List (α × β) :=
  if (dlookup d k).isSome then d.map (fun p => if p.1 == k then (k, v) else p)
  else d ++ [(k, v)]

/-- Dependency tables: insertion-ordered association lists standing for the
Python dict self.deps mapping resource identifiers to freshness tokens. -/
abbrev Deps := List (String × String)

/-- Order-insensitive dictionary equality, the equality Python uses when
comparing the dependency dicts in the cache validity decision. -/
def dictEq (a b : Deps) : Bool :=
  a.all (fun p => dlookup b p.1 == some p.2) &&
    b.all (fun p => dlookup a p.1 == some p.2)

/-! ### The instance state -/
/-- The value universe the execution engine can hand to the renderer, as far
as pyptex.mylatex discriminates it: the Python None, strings, document
references (pyptexNameSpace objects, carrying the nested document's output
filename), matplotlib figures and sympy plot objects (both identified by an
index into the process-wide figure store), and every other value
(identified abstractly, rendered by the external sympy.latex
collaborator). -/
inductive Value where
  | vnone : Value
  | str : String → Value
  | ns : String → Value
  | figure : Nat → Value
  | sympyPlot : Nat → Value
  | other : Nat → Value
deriving DecidableEq

/-- Mutable attributes living on a matplotlib figure object: the generated
filename, the includegraphics markup and the drawn flag.  An attribute the
object does not have (hasattr false) is none. -/
structure FigAttrs where
  figname : Option String := none
  ig : Option String := none
  drawn : Option Bool := none
deriving DecidableEq

/-- The mutable state of one pyptex instance, restricted to the fields the
embedded behaviour reads or writes, together with the process-wide figure
store of the matplotlib collaborator.  The fields scope and accum stand for
the double-underscore fields of the source (the private global scope and
the accumulator), which the persistence step skips; figs and live are not
instance fields at all but the matplotlib registry.  The field subcount
exists on the Python instance only once the cached-substitution path has
assigned it; its initial value here is never read before being assigned. -/
structure MState where
  fragments : List String := []
  outputs : List String := []
  deps : Deps := []
  argv : List String := []
  disable_cache : Bool := false
  autoshow : Bool := true
  lc : Nat := 0
  subcount : Int := 0
  gencount : Nat := 0
  gendir : String := ""
  includegraphics : String := ""
  compiled : String := ""
  scope : List (String × Value) := []
  accum : List Value := []
  figs : List (Nat × FigAttrs) := []
  live : List Nat := []
deriving DecidableEq

/-- pyptex.dep: declare a dependency by storing an empty timestamp token
under the given filename, and return the filename. -/
def dep (st : MState) (filename : String) : MState × String :=
  ({ st with deps := dictUpdate st.deps filename "" }, filename)

/-- pyptex.resolvedeps: recompute the freshness token of every declared
dependency in place, keeping the key order.  The parameter mt is the
external filesystem collaborator returning the formatted modification
timestamp, or nothing when the stat call raises, in which case the empty
token is stored. -/
def resolvedeps (mt : String → Option String) (d : Deps) : Deps :=
  d.map (fun p => (p.1, (mt p.1).getD ""))

/-! ### Figures and the value renderer -/
/-- Substitution of the percent-s placeholder, the semantics of the Python
percent formatting applied to the includegraphics template in
pyptex.__setupfig__. -/
def percentSGo (n : List Char) : List Char → List Char
  | '%' :: 's' :: rest => n ++ rest
  | c :: rest => c :: percentSGo n rest
  | [] => []

/-- String form of the placeholder substitution. -/
def percentS (tpl n : String) : String := String.mk (percentSGo n.data tpl.data)

/-- Read the attributes of a figure object; a figure absent from the store
is an object carrying none of the attributes. -/
def getFig (st : MState) (i : Nat) : FigAttrs := (dlookup st.figs i).getD {}

/-- Store the attributes of a figure object. -/
def setFig (st : MState) (i : Nat) (f : FigAttrs) : MState :=
  { st with figs := dictUpdate st.figs i f }

/-- pyptex.genname at its single internal call site (the default pattern):
increment gencount and return the generated figure filename built from
gendir and gencount. -/
def genname (st : MState) : MState × String :=
  let st1 := { st with gencount := st.gencount + 1 }
  (st1, st1.gendir ++ "/fig" ++ toString st1.gencount ++ ".eps")

/-- pyptex.__setupfig__: attach a generated filename (registering it as a
dependency; the filesystem touch is external), then the includegraphics
markup, then the drawn flag, to a figure that lacks them, and return the
markup attribute.  In the source the markup is built from the local
variable figname, which is bound only when the filename attribute was just
attached; the none result reproduces the NameError the source raises when a
figure carries a filename attribute but no markup attribute. -/
def setupfig (st : MState) (i : Nat) : Option (MState × String) :=
  let f0 := getFig st i
  let s1 : MState × FigAttrs × Option String :=
    match f0.figname with
    | none =>
      let pr := genname st
      let st1 := (dep pr.1 pr.2).1
      (st1, { f0 with figname := some pr.2 }, some pr.2)
    | some _ => (st, f0, none)
  match s1.2.1.ig with
  | none =>
    match s1.2.2 with
    | none => none
    | some n =>
      let f2 := { s1.2.1 with ig := some (percentS s1.1.includegraphics n) }
      let f3 := if f2.drawn = none then { f2 with drawn := some false } else f2
      some (setFig s1.1 i f3, f3.ig.getD "")
  | some ig0 =>
    let f3 := if s1.2.1.drawn = none then { s1.2.1 with drawn := some false } else s1.2.1
    some (setFig s1.1 i f3, ig0)

/-- pyptex.mylatex: render one produced value to markup text.  The external
symbolic renderer sympy.latex enters as the parameter L.  None renders as
the empty string, a string as itself, a document reference as its input
directive, a figure is set up, marked drawn, and renders as its
includegraphics markup attribute, a sympy plot object renders as the empty
string, and every other value is delegated to L. -/
def mylatex (L : Value → String) (st : MState) (X : Value) :
    Option (MState × String) :=
  match X with
  | Value.vnone => some (st, "")
  | Value.str s => some (st, s)
  | Value.ns fn => some (st, "\\input\x7b" ++ fn ++ "\x7d")
  | Value.figure i =>
    match setupfig st i with
    | none => none
    | some pr =>
      let st2 := setFig pr.1 i { getFig pr.1 i with drawn := some true }
      some (st2, (getFig st2 i).ig.getD "")
  | Value.sympyPlot _ => some (st, "")
  | Value.other _ => some (st, L X)

/-- Concrete instance state for the renderer witness: the store holds one
fully attached figure object. -/
def figWitnessState : MState :=
  { figs := [(0, { figname := some "f.eps", ig := some "IG", drawn := some false })] }

/-! ### The execution wrapper -/
/-- The external Python runtime behind pyptex.run: tryEval stands for the
compilation of the (newline-prefixed) fragment text in eval mode together
with its evaluation as an expression, returning the updated machine state
and the produced value, or none when eval-mode compilation fails; exec
stands for running the text as a statement sequence.  Both act on the whole
machine state, because fragment code reaches the pyp instance through its
scope. -/
structure Runtime where
  tryEval : MState → String → Option (MState × Value)
  exec : MState → String → MState

/-- One iteration of the loop of pyptex.showall: set up the figure, and
print (accumulate) it unless it is already drawn. -/
def showallStep (acc : Option MState) (i : Nat) : Option MState :=
  match acc with
  | none => none
  | some st =>
    match setupfig st i with
    | none => none
    | some pr =>
      if (getFig pr.1 i).drawn = some true then some pr.1
      else some { pr.1 with accum := pr.1.accum ++ [Value.figure i] }

/-- pyptex.showall: set up every live figure of the matplotlib registry and
print (accumulate) each one not yet drawn. -/
def showall (st : MState) : Option MState :=
  st.live.foldl showallStep (some st)

/-- pyptex.run: prepend k newline characters to the fragment source (so
diagnostics carry document line numbers), reset the accumulator, evaluate
the text as an expression when it compiles as one, appending the result to
the accumulator, otherwise execute it as a statement sequence; in either
case auto-show the live figures when autoshow is enabled, and return the
accumulator contents. -/
def run (rt : Runtime) (st : MState) (S : String) (k : Nat) :
    Option (MState × List Value) :=
  let S1 := String.mk (List.replicate k '\n' ++ S.data)
  let st0 := { st with accum := [] }
  match rt.tryEval st0 S1 with
  | some pr =>
    let st2 := { pr.1 with accum := pr.1.accum ++ [pr.2] }
    match (if st2.autoshow then showall st2 else some st2) with
    | none => none
    | some st3 => some (st3, st3.accum)
  | none =>
    let st1 := rt.exec st0 S1
    match (if st1.autoshow then showall st1 else some st1) with
    | none => none
    | some st2 => some (st2, st2.accum)

/-- The join of the rendered values of one fragment execution, the
expression ''.join(map(self.mylatex, result)), threading the renderer
state left to right. -/
def joinLatex (L : Value → String) : MState → List Value → Option (MState × String)
  | st, [] => some (st, "")
  | st, v :: vs =>
    match mylatex L st v with
    | none => none
    | some pr =>
      match joinLatex L pr.1 vs with
      | none => none
      | some q => some (q.1, pr.2 ++ q.2)

/-! ### The cache manager -/
/-- The scan-pass handler of pyptex.compile: append the fragment source
text to the fragments list and check the option tag (the assert of the
source); the replacement text of the scan pass is the empty string.  A
cleared flag records a raised exception, after which nothing runs. -/
def scannerR : MState × Bool → String → Nat → String → (MState × Bool) × String :=
  fun p C _k o =>
    if p.2 = false then (p, "")
    else
      let st := { p.1 with fragments := p.1.fragments ++ [C] }
      ((st, o == "" || o == "verbatim"), "")

/-- The cached-substitution handler of pyptex.compile: advance the position
counter, then substitute the stored output at that position for a plain
fragment, or the fragment source text for a verbatim one.  An out-of-range
index or an unrecognized tag is a Python error, recorded by clearing the
flag. -/
def subberR : MState × Bool → String → Nat → String → (MState × Bool) × String :=
  fun p C _k o =>
    if p.2 = false then (p, "")
    else
      let st := { p.1 with subcount := p.1.subcount + 1 }
      if o == "" then
        match st.outputs[st.subcount.toNat]? with
        | some s => ((st, true), s)
        | none => ((st, false), "")
      else if o == "verbatim" then ((st, true), C)
      else ((st, false), "")

/-- The fresh-execution handler of pyptex.compile: run the fragment, render
and join its produced values into one string, append it to outputs, and
substitute the newly appended string (plain) or the fragment source text
(verbatim). -/
def appenderR (rt : Runtime) (L : Value → String) :
    MState × Bool → String → Nat → String → (MState × Bool) × String :=
  fun p C k o =>
    if p.2 = false then (p, "")
    else
      match run rt p.1 C k with
      | none => ((p.1, false), "")
      | some pr =>
        match joinLatex L pr.1 pr.2 with
        | none => ((pr.1, false), "")
        | some q =>
          let st := { q.1 with outputs := q.1.outputs ++ [q.2] }
          if o == "" then ((st, true), st.outputs.getLastD "")
          else if o == "verbatim" then ((st, true), C)
          else ((st, false), "")

/-- The line-count update self.lc += (ln z1 - ln z0) + 1 lifted to the walk
state. -/
def bumpLc : MState × Bool → Nat → MState × Bool :=
  fun p n => ({ p.1 with lc := p.1.lc + n }, p.2)

/-- pyptex.process: one full walk of the text with the given handler,
starting from the machine state and its exception flag. -/
def process (rho : MState × Bool → String → Nat → String → (MState × Bool) × String)
    (p : MState × Bool) (S : String) : (MState × Bool) × String :=
  let q := processGo rho bumpLc S.data.length S.data none 0 p
  (q.1, String.mk q.2)

/-- A loaded or persisted cache dictionary: one optional slot per modeled
plain instance field; a key missing from the pickle is none, and a pickle
load failure is modeled by the dictionary with every slot missing. -/
structure CacheDict where
  fragments : Option (List String) := none
  outputs : Option (List String) := none
  deps : Option Deps := none
  argv : Option (List String) := none
  disable_cache : Option Bool := none
  autoshow : Option Bool := none
  lc : Option Nat := none
  subcount : Option Int := none
  gencount : Option Nat := none
  gendir : Option String := none
  includegraphics : Option String := none
  compiled : Option String := none
deriving DecidableEq

/-- Fill the defaults for the five core keys when missing from a loaded
cache dictionary: empty fragments, outputs, deps and argv, and a true
disable flag, so that a malformed cache behaves as always stale. -/
def withDefaults (c : CacheDict) : CacheDict :=
  { c with
    fragments := some (c.fragments.getD []),
    outputs := some (c.outputs.getD []),
    deps := some (c.deps.getD []),
    argv := some (c.argv.getD []),
    disable_cache := some (c.disable_cache.getD true) }

/-- Cache adoption on a hit: every key present in the cache dictionary
overwrites the corresponding instance field. -/
def adopt (st : MState) (c : CacheDict) : MState :=
  { st with
    fragments := c.fragments.getD st.fragments,
    outputs := c.outputs.getD st.outputs,
    deps := c.deps.getD st.deps,
    argv := c.argv.getD st.argv,
    disable_cache := c.disable_cache.getD st.disable_cache,
    autoshow := c.autoshow.getD st.autoshow,
    lc := c.lc.getD st.lc,
    subcount := c.subcount.getD st.subcount,
    gencount := c.gencount.getD st.gencount,
    gendir := c.gendir.getD st.gendir,
    includegraphics := c.includegraphics.getD st.includegraphics,
    compiled := c.compiled.getD st.compiled }

/-- The persistence step of pyptex.compile: serialize every instance field
that is not name-mangled (no dunder names) and not callable into a new
cache dictionary.  The modeled dunder fields (scope, accum) are skipped;
the matplotlib registry is not an instance field; subcount is absent
because the fresh-execution path, the only path that persists, never
assigns it. -/
def persist (st : MState) : CacheDict :=
  { fragments := some st.fragments,
    outputs := some st.outputs,
    deps := some st.deps,
    argv := some st.argv,
    disable_cache := some st.disable_cache,
    autoshow := some st.autoshow,
    lc := some st.lc,
    subcount := none,
    gencount := some st.gencount,
    gendir := some st.gendir,
    includegraphics := some st.includegraphics,
    compiled := some st.compiled }

/-- The diagnostic identity of the first failing validity check, in the
evaluation order of the if/elif chain of pyptex.compile. -/
inductive CacheMiss where
  | disabled : CacheMiss
  | argvDiffers : CacheMiss
  | fragmentsDiffer : CacheMiss
  | depsDiffer : CacheMiss
deriving DecidableEq

/-- The validity decision of pyptex.compile: the if/elif chain comparing
the loaded record against the current state, short-circuiting at the first
failing check and remembering which check failed; none means the cache is
valid. -/
def cacheDecision (cDis : Bool) (cArgv argvNow : List String)
    (cFrags fragsNow : List String) (depsNow cDeps : Deps) : Option CacheMiss :=
  if cDis then some CacheMiss.disabled
  else if cArgv ≠ argvNow then some CacheMiss.argvDiffers
  else if cFrags ≠ fragsNow then some CacheMiss.fragmentsDiffer
  else if !(dictEq depsNow cDeps) then some CacheMiss.depsDiffer
  else none

/-- The observable outcome of one compile: the final instance state, the
validity decision (the cached flag and the identity of the first diverging
check), and the cache dictionary persisted at the end, when any. -/
structure CompileOut where
  st : MState
  cached : Bool
  miss : Option CacheMiss
  persisted : Option CacheDict
deriving DecidableEq

/-- The cache-hit path of pyptex.compile: adopt every field of the record,
reset the position counter, substitute the stored outputs, then re-resolve
the dependency table; nothing is persisted because the cache was valid. -/
def compileHit (mt : String → Option String) (text : String)
    (cache : CacheDict) (st5 : MState) : Option CompileOut :=
  let st6 := adopt st5 cache
  let st7 := { st6 with subcount := -1 }
  let p2 := process subberR (st7, true) text
  if p2.1.2 = false then none
  else
    let st8 := { p2.1.1 with compiled := p2.2 }
    let st9 := { st8 with deps := resolvedeps mt st8.deps }
    some { st := st9, cached := true, miss := none, persisted := none }

/-- The cache-miss path of pyptex.compile: restore the live dependency
table, clear the outputs, execute and substitute every fragment afresh,
re-resolve the dependency table, and persist a new record. -/
def compileMiss (rt : Runtime) (L : Value → String) (mt : String → Option String)
    (text : String) (r : CacheMiss) (saveddeps : Deps) (st5 : MState) :
    Option CompileOut :=
  let st6 := { st5 with deps := saveddeps, outputs := [] }
  let p2 := process (appenderR rt L) (st6, true) text
  if p2.1.2 = false then none
  else
    let st8 := { p2.1.1 with compiled := p2.2 }
    let st9 := { st8 with deps := resolvedeps mt st8.deps }
    some { st := st9, cached := false, miss := some r, persisted := some (persist st9) }

/-- pyptex.compile: load the prior cache record, substituting an empty
dictionary when loading raises and filling defaults for missing keys; scan
the text for fragments; re-seed the dependency table from the prior
record's keys only and resolve it into a freshness snapshot; decide cache
validity; then run the hit or the miss path.  Reading the source text and
writing the output file are external.  The none result is a raised Python
exception: an invalid option tag in the scan, a substitution index error,
or a figure setup error during execution. -/
def compile (rt : Runtime) (L : Value → String) (mt : String → Option String)
    (text : String) (load : Option CacheDict) (st0 : MState) :
    Option CompileOut :=
  let cache := withDefaults (load.getD {})
  let p1 := process scannerR ({ st0 with fragments := [] }, true) text
  if p1.1.2 = false then none
  else
    let st2 := p1.1.1
    let saveddeps := st2.deps
    let st3 := { st2 with deps := [] }
    let st4 := (cache.deps.getD []).foldl (fun s kv => (dep s kv.1).1) st3
    let st5 := { st4 with deps := resolvedeps mt st4.deps }
    match cacheDecision (cache.disable_cache.getD true) (cache.argv.getD [])
        st5.argv (cache.fragments.getD []) st5.fragments st5.deps
        (cache.deps.getD []) with
    | none => compileHit mt text cache st5
    | some r => compileMiss rt L mt text r saveddeps st5

/-- Total line count contributed by a visit sequence, the sum of the
per-fragment updates of self.lc. -/
def lcOf (vs : List (String × Nat × String)) : Nat :=
  (vs.map (fun v => countNL v.1.data + 1)).sum

/-- Whether every option tag of a visit sequence passes the assert of the
scan pass. -/
def tagsOk (vs : List (String × Nat × String)) : Bool :=
  vs.all (fun v => v.2.2 == "" || v.2.2 == "verbatim")

/-- Re-seeding the dependency table from the prior record's keys with empty
tokens: the loop over the record's deps running self.dep on each key,
started from an empty table. -/
def seedFrom (cDeps : Deps) : Deps :=
  cDeps.foldl (fun d kv => dictUpdate d kv.1 "") []

/-- A runtime oracle that never evaluates an expression and executes every
statement as a no-op; used to instantiate theorems at concrete inputs. -/
def rtTrivial : Runtime :=
  { tryEval := fun _ _ => none, exec := fun st _ => st }

/-! ### Preservation: what well-behaved fragment code leaves alone -/
/-- The compiler bookkeeping a state transition leaves untouched apart from
the outputs list: the fragments list, the invocation arguments, the disable
flag, and freedom from duplicate dependency keys. -/
def PreservesCore (a b : MState) : Prop :=
  b.fragments = a.fragments ∧ b.argv = a.argv ∧
  b.disable_cache = a.disable_cache ∧
  ((a.deps.map Prod.fst).Nodup → (b.deps.map Prod.fst).Nodup)

/-- A transition that additionally leaves the outputs list untouched. -/
def Preserves (a b : MState) : Prop :=
  PreservesCore a b ∧ b.outputs = a.outputs

/-- A runtime oracle is tame when the fragment code it stands for leaves
the compiler's own bookkeeping alone: it never reassigns the fragments,
outputs, argv or disable_cache fields of the pyp instance, and it keeps
the dependency table free of duplicate keys (a Python dict cannot hold
duplicates).  Ordinary document code satisfies this; the fields are meant
to be mutated only by the compile machinery itself. -/
def Tame (rt : Runtime) : Prop :=
  (∀ st S st1 v, rt.tryEval st S = some (st1, v) → Preserves st st1) ∧
  (∀ st S, Preserves st (rt.exec st S))

/-! ### Positional characterization of the two substitution passes -/
/-- The replacement texts of a substitution pass over a visit sequence with
a position-indexed outputs list: the stored output at the running position
for a plain fragment, the fragment source text for a verbatim one. -/
def repsOf (os : List String) : Nat → List (String × Nat × String) → List (List Char)
  | _, [] => []
  | i, v :: vs =>
    (if v.2.2 == "" then (os.getD i "").data else v.1.data) :: repsOf os (i + 1) vs

theorem processGo_spec {σ : Type} (rho : σ → String → Nat → String → σ × String)
    (bump : σ → Nat → σ) :
    ∀ fuel s prev nl st,
      processGo rho bump fuel s prev nl st =
        ((foldVisits rho bump st (visitsGo fuel s prev nl)).1,
          (segsGo fuel s prev).1 ++
            glue (segsGo fuel s prev).2
              (foldVisits rho bump st (visitsGo fuel s prev nl)).2) := by
  intro fuel
  induction fuel with
  | zero =>
    intro s prev nl st
    simp [processGo, visitsGo, segsGo, foldVisits, glue]
  | succ fuel ih =>
    intro s prev nl st
    match s with
    | [] => simp [processGo, visitsGo, segsGo, foldVisits, glue]
    | c :: rest =>
      simp only [processGo, visitsGo, segsGo]
      cases hc : matchComment prev (c :: rest) with
      | some p =>
        simp [ih, List.append_assoc]
      | none =>
        cases he : matchEscape (c :: rest) with
        | some r =>
          simp [ih, List.cons_append]
        | none =>
          cases hf : matchFragment (c :: rest) with
          | some f =>
            simp only [foldVisits, ih, String.data]
            simp [glue]
          | none =>
            simp [ih, List.cons_append]

theorem foldVisits_withLog {σ : Type} (rho : σ → String → Nat → String → σ × String)
    (bump : σ → Nat → σ) :
    ∀ (vs : List (String × Nat × String)) (st : σ) (L : List (String × Nat × String)),
      foldVisits (withLog rho) (withLogBump bump) (st, L) vs =
        (((foldVisits rho bump st vs).1, L ++ vs), (foldVisits rho bump st vs).2) := by
  intro vs
  induction vs with
  | nil => simp [foldVisits]
  | cons v vs ih =>
    intro st L
    simp [foldVisits, withLog, withLogBump, ih]

theorem handlerCalls_eq_visits {σ : Type} (rho : σ → String → Nat → String → σ × String)
    (bump : σ → Nat → σ) (st : σ) (S : String) :
    handlerCalls rho bump st S = visits S := by
  unfold handlerCalls visits
  rw [processGo_spec, foldVisits_withLog]
  simp

/-- Claim C4: for every document text, running the tokenizer walk with two
different fragment handlers (for instance one that records fragments and
returns empty strings and one that substitutes arbitrary replacement
strings, over arbitrary handler state types) invokes the handlers on
identical fragment bodies at identical text offsets in identical order; in
particular the scan pass and the substitution pass visit exactly the same
fragment sequence, namely the visit sequence determined by the text
alone. -/
theorem claim_C4_walk_handler_independent {σ₁ σ₂ : Type}
    (rho₁ : σ₁ → String → Nat → String → σ₁ × String)
    (rho₂ : σ₂ → String → Nat → String → σ₂ × String)
    (bump₁ : σ₁ → Nat → σ₁) (bump₂ : σ₂ → Nat → σ₂)
    (st₁ : σ₁) (st₂ : σ₂) (S : String) :
    handlerCalls rho₁ bump₁ st₁ S = handlerCalls rho₂ bump₂ st₂ S ∧
    handlerCalls rho₁ bump₁ st₁ S = visits S := by
  constructor
  · rw [handlerCalls_eq_visits, handlerCalls_eq_visits]
  · exact handlerCalls_eq_visits rho₁ bump₁ st₁ S

theorem splitAtNewline_comment (mid rest : List Char) (h : '\n' ∉ mid) :
    splitAtNewline (mid ++ '\n' :: rest) = some (mid ++ ['\n'], rest) := by
  induction mid with
  | nil => simp [splitAtNewline]
  | cons c cs ih =>
    have hc : ¬ (c = '\n') := by
      intro hx
      exact h (by simp [hx])
    have hcs : '\n' ∉ cs := by
      intro hx
      exact h (by simp [hx])
    have hne : ¬ (c = '\n') := hc
    simp [splitAtNewline, hne, ih hcs]

theorem countNL_comment (mid : List Char) (h : '\n' ∉ mid) :
    countNL ('%' :: (mid ++ ['\n'])) = 1 := by
  have hz : mid.countP (fun c => c == '\n') = 0 := by
    rw [List.countP_eq_zero]
    intro a ha
    simp only [beq_iff_eq]
    intro hx
    exact h (hx ▸ ha)
  simp [countNL, List.countP_cons, List.countP_append, hz]

theorem matchComment_comment (prev : Option Char) (mid rest : List Char)
    (h : '\n' ∉ mid) (hp : prev ≠ some '\\') :
    matchComment prev ('%' :: (mid ++ '\n' :: rest)) =
      some ('%' :: (mid ++ ['\n']), rest) := by
  simp [matchComment, hp, splitAtNewline_comment mid rest h]

/-- Claim C7: a comment line, beginning with an unescaped comment marker and
running to the end of the line inclusive, is passed through to the output
verbatim and unscanned, so neither the handler state is touched nor is any
fragment marker inside the comment line visited (in particular a fragment
inside it is never executed); and independently an escaped marker token
collapses to the single literal marker character, so the input consisting of
the letters a and b around a doubled marker substitutes to the same text
with a single marker. -/
theorem claim_C7_comment_escape :
    (∀ {σ : Type} (rho : σ → String → Nat → String → σ × String)
        (bump : σ → Nat → σ) (fuel : Nat) (mid rest : List Char)
        (prev : Option Char) (nl : Nat) (st : σ),
      '\n' ∉ mid → prev ≠ some '\\' →
        processGo rho bump (fuel + 1) ('%' :: (mid ++ '\n' :: rest)) prev nl st =
          ((processGo rho bump fuel rest (some '\n') (nl + 1) st).1,
            '%' :: (mid ++ '\n' ::
              (processGo rho bump fuel rest (some '\n') (nl + 1) st).2)) ∧
        visitsGo (fuel + 1) ('%' :: (mid ++ '\n' :: rest)) prev nl =
          visitsGo fuel rest (some '\n') (nl + 1)) ∧
    (∀ {σ : Type} (rho : σ → String → Nat → String → σ × String)
        (bump : σ → Nat → σ) (st : σ),
      processGo rho bump 6 ("a @@ b".data) none 0 st = (st, "a @ b".data)) := by
  constructor
  · intro σ rho bump fuel mid rest prev nl st h hp
    have hm := matchComment_comment prev mid rest h hp
    have hn := countNL_comment mid h
    constructor
    · conv_lhs => rw [processGo]
      rw [hm]
      simp [hn]
    · conv_lhs => rw [visitsGo]
      rw [hm]
      simp [hn]
  · intro σ rho bump st
    rfl

/-- Witness for claim C7 at the concrete spec example: the text consisting
of a comment line containing a fragment marker followed by the letter c is
passed through unchanged by a walk with a handler that would replace every
fragment by the text BAD, and the walk visits no fragment at all. -/
theorem claim_C7_witness :
    processGo (fun (u : Unit) (_ : String) (_ : Nat) (_ : String) => (u, "BAD"))
        (fun (u : Unit) (_ : Nat) => u) 11
        ('%' :: ([' ', '@', '{', '1', '}'] ++ '\n' :: ['c'])) none 0 () =
      ((), '%' :: ([' ', '@', '{', '1', '}'] ++ '\n' :: ['c'])) ∧
    visitsGo 11 ('%' :: ([' ', '@', '{', '1', '}'] ++ '\n' :: ['c'])) none 0 = [] := by
  have h := claim_C7_comment_escape.1
    (fun (u : Unit) (_ : String) (_ : Nat) (_ : String) => (u, "BAD"))
    (fun (u : Unit) (_ : Nat) => u) 10 [' ', '@', '{', '1', '}'] ['c'] none 0 ()
    (by decide) (by decide)
  constructor
  · rw [h.1]
    rfl
  · rw [h.2]
    rfl

theorem dlookup_map_update {α β : Type} [BEq α] [LawfulBEq α]
    (k : α) (v : β) :
    ∀ d : List (α × β), (dlookup d k).isSome →
      dlookup (d.map (fun p => if p.1 == k then (k, v) else p)) k = some v := by
  intro d
  induction d with
  | nil => intro h; simp [dlookup] at h
  | cons p rest ih =>
    intro h
    by_cases hp : p.1 == k
    · simp [dlookup, hp]
    · have hr : (dlookup rest k).isSome := by
        simpa [dlookup, hp] using h
      simp [dlookup, hp, ih hr]

theorem dlookup_append_single {α β : Type} [BEq α] [LawfulBEq α]
    (k : α) (v : β) :
    ∀ d : List (α × β), dlookup d k = none →
      dlookup (d ++ [(k, v)]) k = some v := by
  intro d
  induction d with
  | nil => intro _; simp [dlookup]
  | cons p rest ih =>
    intro h
    by_cases hp : p.1 == k
    · simp [dlookup, hp] at h
    · have hr : dlookup rest k = none := by simpa [dlookup, hp] using h
      simp [dlookup, hp, ih hr]

theorem dlookup_dictUpdate_self {α β : Type} [BEq α] [LawfulBEq α]
    (d : List (α × β)) (k : α) (v : β) :
    dlookup (dictUpdate d k v) k = some v := by
  unfold dictUpdate
  by_cases h : (dlookup d k).isSome
  · simpa [h] using dlookup_map_update k v d h
  · have hn : dlookup d k = none := by
      cases hx : dlookup d k
      · rfl
      · exact absurd (by simp [hx]) h
    simpa [h] using dlookup_append_single k v d hn

theorem dlookup_none_keys {α β : Type} [BEq α] [LawfulBEq α]
    (k : α) :
    ∀ d : List (α × β), dlookup d k = none → ∀ p ∈ d, ¬ (p.1 = k) := by
  intro d
  induction d with
  | nil => intro _ p hp; cases hp
  | cons q rest ih =>
    intro h p hp
    have hq : ¬ (q.1 == k) := by
      intro hx
      simp [dlookup, hx] at h
    rcases List.mem_cons.mp hp with hp | hp
    · intro hx
      exact hq (by rw [hp] at hx; simp [hx])
    · exact ih (by simpa [dlookup, hq] using h) p hp

theorem dlookup_some_mem_keys {α β : Type} [BEq α] [LawfulBEq α]
    (k : α) (w : β) :
    ∀ d : List (α × β), dlookup d k = some w → k ∈ d.map Prod.fst := by
  intro d
  induction d with
  | nil => intro h; simp [dlookup] at h
  | cons q rest ih =>
    intro h
    by_cases hq : q.1 == k
    · have : q.1 = k := by simpa using hq
      simp [this]
    · have hr : dlookup rest k = some w := by simpa [dlookup, hq] using h
      simp [ih hr]

theorem dlookup_none_of_not_mem {α β : Type} [BEq α] [LawfulBEq α]
    (k : α) (d : List (α × β)) (h : k ∉ d.map Prod.fst) :
    dlookup d k = none := by
  cases hx : dlookup d k with
  | none => rfl
  | some w => exact absurd (dlookup_some_mem_keys k w d hx) h

theorem map_update_of_none {α β : Type} [BEq α] [LawfulBEq α]
    (d : List (α × β)) (k : α) (v : β) (h : dlookup d k = none) :
    d.map (fun p => if p.1 == k then (k, v) else p) = d := by
  have := dlookup_none_keys k d h
  calc d.map (fun p => if p.1 == k then (k, v) else p)
      = d.map id := by
        apply List.map_congr_left
        intro p hp
        have hne : ¬ (p.1 = k) := this p hp
        simp [hne]
    _ = d := List.map_id d

theorem dictUpdate_idem {α β : Type} [BEq α] [LawfulBEq α]
    (d : List (α × β)) (k : α) (v : β) :
    dictUpdate (dictUpdate d k v) k v = dictUpdate d k v := by
  have hupd : ∀ p : α × β,
      (fun p : α × β => if p.1 == k then (k, v) else p)
        ((fun p : α × β => if p.1 == k then (k, v) else p) p) =
      (fun p : α × β => if p.1 == k then (k, v) else p) p := by
    intro p
    by_cases hp : p.1 == k
    · simp [hp]
    · simp [hp]
  by_cases h : (dlookup d k).isSome
  · have h1 : dictUpdate d k v = d.map (fun p => if p.1 == k then (k, v) else p) := by
      unfold dictUpdate
      simp [h]
    have h2 : (dlookup (d.map (fun p => if p.1 == k then (k, v) else p)) k).isSome := by
      rw [dlookup_map_update k v d h]
      rfl
    rw [h1]
    unfold dictUpdate
    simp only [h2, if_true]
    rw [List.map_map]
    apply List.map_congr_left
    intro p _
    exact hupd p
  · have hn : dlookup d k = none := by
      cases hx : dlookup d k
      · rfl
      · exact absurd (by simp [hx]) h
    have h1 : dictUpdate d k v = d ++ [(k, v)] := by
      unfold dictUpdate
      simp [h]
    have h2 : (dlookup (d ++ [(k, v)]) k).isSome := by
      rw [dlookup_append_single k v d hn]
      rfl
    rw [h1]
    unfold dictUpdate
    simp only [h2, if_true]
    rw [List.map_append, map_update_of_none d k v hn]
    simp

theorem dictUpdate_of_dlookup_eq {α β : Type} [BEq α] [LawfulBEq α] :
    ∀ (d : List (α × β)) (k : α) (v : β), (d.map Prod.fst).Nodup →
      dlookup d k = some v → dictUpdate d k v = d := by
  intro d
  induction d with
  | nil => intro k v _ h; simp [dlookup] at h
  | cons p rest ih =>
    intro k v hnd h
    rw [List.map_cons, List.nodup_cons] at hnd
    have hsome : (dlookup (p :: rest) k).isSome := by simp [h]
    unfold dictUpdate
    simp only [hsome, if_true]
    by_cases hp : p.1 == k
    · have hk : p.1 = k := by simpa using hp
      have hv : p.2 = v := by
        have h2 : some p.2 = some v := by simpa [dlookup, hp] using h
        simpa using h2
      have hrest : dlookup rest k = none :=
        dlookup_none_of_not_mem k rest (hk ▸ hnd.1)
      simp only [List.map_cons, hp, if_true]
      rw [map_update_of_none rest k v hrest]
      have hpv : p = (k, v) := by
        cases p with
        | mk a b =>
          simp only at hk hv
          rw [hk, hv]
      rw [hpv]
    · have hrest : dlookup rest k = some v := by simpa [dlookup, hp] using h
      have h3 := ih k v hnd.2 hrest
      unfold dictUpdate at h3
      simp only [show (dlookup rest k).isSome from by simp [hrest], if_true] at h3
      simp only [List.map_cons, hp, if_false]
      rw [h3]
      simp

theorem dlookup_self_of_nodup {α β : Type} [BEq α] [LawfulBEq α] :
    ∀ d : List (α × β), (d.map Prod.fst).Nodup → ∀ p ∈ d, dlookup d p.1 = some p.2 := by
  intro d
  induction d with
  | nil => intro _ p hp; cases hp
  | cons q rest ih =>
    intro hnd p hp
    rw [List.map_cons, List.nodup_cons] at hnd
    rcases List.mem_cons.mp hp with hp | hp
    · simp [hp, dlookup]
    · have hne : ¬ (q.1 == p.1) := by
        intro hx
        have h1 : q.1 = p.1 := by simpa using hx
        have hmem : p.1 ∈ rest.map Prod.fst := List.mem_map_of_mem Prod.fst hp
        exact hnd.1 (h1 ▸ hmem)
      simp [dlookup, hne, ih hnd.2 p hp]

theorem dictEq_self_of_nodup (d : Deps) (hnd : (d.map Prod.fst).Nodup) :
    dictEq d d = true := by
  unfold dictEq
  rw [Bool.and_self]
  rw [List.all_eq_true]
  intro p hp
  simp [dlookup_self_of_nodup d hnd p hp]

/-- Claim C9: dep (the declareDependency primitive) returns its argument,
is idempotent, and leaves the table mapping the identifier to a token,
namely the empty string (in particular this is the token of an identifier
that was never resolved); when the identifier is absent it is inserted at
the end of the table with the empty token. -/
theorem claim_C9_dep (st : MState) (id : String) :
    (dep st id).2 = id ∧
    dep (dep st id).1 id = dep st id ∧
    dlookup (dep st id).1.deps id = some "" ∧
    (dlookup st.deps id = none →
      (dep st id).1.deps = st.deps ++ [(id, "")]) := by
  refine ⟨rfl, ?_, ?_, ?_⟩
  · unfold dep
    simp [dictUpdate_idem]
  · unfold dep
    exact dlookup_dictUpdate_self st.deps id ""
  · intro h
    unfold dep
    simp only
    unfold dictUpdate
    simp [h]

/-- Witness for claim C9 at a concrete state: on the empty instance state,
declaring the dependency r returns r, a second declaration changes nothing,
and the table maps r to the empty token. -/
theorem claim_C9_witness :
    (dep ({} : MState) "r").2 = "r" ∧
    (dep ({} : MState) "r").1.deps = ({} : MState).deps ++ [("r", "")] := by
  have h := claim_C9_dep ({} : MState) "r"
  exact ⟨h.1, h.2.2.2 (by decide)⟩

theorem getFig_setFig (st : MState) (i : Nat) (f : FigAttrs) :
    getFig (setFig st i f) i = f := by
  unfold getFig setFig
  simp [dlookup_dictUpdate_self]

theorem keys_dictUpdate_nodup {α β : Type} [BEq α] [LawfulBEq α]
    (d : List (α × β)) (k : α) (v : β) (h : (d.map Prod.fst).Nodup) :
    ((dictUpdate d k v).map Prod.fst).Nodup := by
  by_cases hs : (dlookup d k).isSome
  · have h1 : dictUpdate d k v = d.map (fun p => if p.1 == k then (k, v) else p) := by
      unfold dictUpdate
      simp [hs]
    rw [h1]
    have h2 : (d.map (fun p => if p.1 == k then (k, v) else p)).map Prod.fst =
        d.map Prod.fst := by
      rw [List.map_map]
      apply List.map_congr_left
      intro p _
      by_cases hp : p.1 == k
      · have : p.1 = k := by simpa using hp
        simp [hp, Function.comp, this]
      · simp [hp, Function.comp]
    rw [h2]
    exact h
  · have hn : dlookup d k = none := by
      cases hx : dlookup d k
      · rfl
      · exact absurd (by simp [hx]) hs
    have h1 : dictUpdate d k v = d ++ [(k, v)] := by
      unfold dictUpdate
      simp [hs]
    rw [h1]
    have hk : k ∉ d.map Prod.fst := by
      intro hmem
      rcases List.mem_map.mp hmem with ⟨p, hp, hfst⟩
      exact dlookup_none_keys k d hn p hp hfst
    rw [List.map_append]
    rw [List.nodup_append]
    refine ⟨h, by simp, ?_⟩
    intro a ha hb
    simp at hb
    exact hk (hb ▸ ha)

theorem setupfig_post (st : MState) (i : Nat) (st1 : MState) (ig : String)
    (h : setupfig st i = some (st1, ig)) :
    (getFig st1 i).ig = some ig ∧ (getFig st1 i).figname.isSome ∧
    (getFig st1 i).drawn.isSome ∧
    st1.figs = dictUpdate st.figs i (getFig st1 i) := by
  simp only [setupfig] at h
  repeat' split at h
  all_goals try exact Option.noConfusion h
  all_goals
    rw [Option.some.injEq, Prod.mk.injEq] at h
    obtain ⟨h1, h2⟩ := h
    subst h1
    subst h2
    rw [getFig_setFig]
    refine ⟨?_, ?_, ?_, ?_⟩ <;>
      simp_all [setFig, dep, genname, Option.isSome_iff_ne_none]

theorem setupfig_idem (st : MState) (i : Nat) (st1 : MState) (ig : String)
    (hnd : (st.figs.map Prod.fst).Nodup)
    (h : setupfig st i = some (st1, ig)) :
    setupfig st1 i = some (st1, ig) := by
  obtain ⟨hig, hfn, hd, hfigs⟩ := setupfig_post st i st1 ig h
  have hnd1 : (st1.figs.map Prod.fst).Nodup := by
    rw [hfigs]
    exact keys_dictUpdate_nodup st.figs i (getFig st1 i) hnd
  have hlk : dlookup st1.figs i = some (getFig st1 i) := by
    rw [hfigs]
    exact dlookup_dictUpdate_self st.figs i (getFig st1 i)
  obtain ⟨fn, hfn⟩ := Option.isSome_iff_exists.mp hfn
  obtain ⟨b, hb⟩ := Option.isSome_iff_exists.mp hd
  have hset : setFig st1 i (getFig st1 i) = st1 := by
    unfold setFig
    rw [dictUpdate_of_dlookup_eq st1.figs i (getFig st1 i) hnd1 hlk]
  unfold setupfig
  simp only [hfn, hig, hb]
  rw [if_neg (by simp)]
  rw [hset]

/-- Claim C8 counterexample: a sympy plot object is a produced value that is
none of None, a string, a document reference or a matplotlib figure, yet the
renderer does not delegate it to the external math renderer: with an
external renderer that answers DELEGATED on every value, mylatex still
renders the plot object as the empty string. -/
theorem claim_C8_counterexample :
    (mylatex (fun _ => "DELEGATED") ({} : MState) (Value.sympyPlot 0)).map
        (fun p => p.2) = some "" ∧
    (fun (_ : Value) => "DELEGATED") (Value.sympyPlot 0) ≠ "" := by
  exact ⟨rfl, by decide⟩

/-- Claim C8 (amended): the value renderer maps None to the empty string, a
string to itself unchanged, a Document Reference to its fixed textual
include form, a figure object to its image-embed markup after an idempotent
setup, a sympy plot object to the empty string, and any other value is
delegated to the external math-to-markup renderer. -/
theorem claim_C8_mylatex (L : Value → String) (st : MState) :
    mylatex L st Value.vnone = some (st, "") ∧
    (∀ s, mylatex L st (Value.str s) = some (st, s)) ∧
    (∀ fn, mylatex L st (Value.ns fn) = some (st, "\\input\x7b" ++ fn ++ "\x7d")) ∧
    (∀ i st1 ig, (st.figs.map Prod.fst).Nodup → setupfig st i = some (st1, ig) →
      setupfig st1 i = some (st1, ig) ∧
      mylatex L st (Value.figure i) =
        some (setFig st1 i { getFig st1 i with drawn := some true }, ig)) ∧
    (∀ i, mylatex L st (Value.sympyPlot i) = some (st, "")) ∧
    (∀ i, mylatex L st (Value.other i) = some (st, L (Value.other i))) := by
  refine ⟨rfl, fun s => rfl, fun fn => rfl, ?_, fun i => rfl, fun i => rfl⟩
  intro i st1 ig hnd h
  refine ⟨setupfig_idem st i st1 ig hnd h, ?_⟩
  have hig := (setupfig_post st i st1 ig h).1
  simp only [mylatex, h]
  rw [getFig_setFig]
  simp [hig]

/-- Witness for claim C8: on a concrete state holding one fully attached
figure, the renderer setup succeeds and is idempotent, and the figure
renders to its markup attribute with the drawn flag set. -/
theorem claim_C8_witness :
    setupfig figWitnessState 0 = some (figWitnessState, "IG") ∧
    setupfig figWitnessState 0 = some (figWitnessState, "IG") ∧
    mylatex (fun _ => "L") figWitnessState (Value.figure 0) =
      some (setFig figWitnessState 0
        { getFig figWitnessState 0 with drawn := some true }, "IG") := by
  have h0 : setupfig figWitnessState 0 = some (figWitnessState, "IG") := by decide
  have h := (claim_C8_mylatex (fun _ => "L") figWitnessState).2.2.2.1 0
    figWitnessState "IG" (by decide) h0
  exact ⟨h0, h.1, h.2⟩

theorem process_parts
    (rho : MState × Bool → String → Nat → String → (MState × Bool) × String)
    (p : MState × Bool) (S : String) :
    process rho p S =
      ((foldVisits rho bumpLc p (visits S)).1,
        String.mk ((segsGo S.data.length S.data none).1 ++
          glue (segsGo S.data.length S.data none).2
            (foldVisits rho bumpLc p (visits S)).2)) := by
  unfold process visits
  rw [processGo_spec]

theorem scanFold_ok :
    ∀ (vs : List (String × Nat × String)) (st : MState) (ok : Bool),
      (foldVisits scannerR bumpLc (st, ok) vs).1.2 = (ok && tagsOk vs) := by
  intro vs
  induction vs with
  | nil => intro st ok; simp [foldVisits, tagsOk]
  | cons v vs ih =>
    intro st ok
    simp only [foldVisits, bumpLc, scannerR]
    by_cases hok : ok = false
    · subst hok
      simp only [if_pos rfl]
      rw [ih]
      simp
    · have hok2 : ok = true := by
        cases ok
        · exact absurd rfl hok
        · rfl
      subst hok2
      simp only [if_neg (show ¬ (true = false) by decide)]
      rw [ih]
      simp [tagsOk, Bool.and_comm]

theorem scanFold_state :
    ∀ (vs : List (String × Nat × String)) (st : MState), tagsOk vs = true →
      (foldVisits scannerR bumpLc (st, true) vs).1.1 =
        { st with fragments := st.fragments ++ vs.map (fun v => v.1),
                  lc := st.lc + lcOf vs } := by
  intro vs
  induction vs with
  | nil =>
    intro st _
    simp [foldVisits, lcOf]
  | cons v vs ih =>
    intro st hok
    rw [tagsOk, List.all_cons] at hok
    have hv : (v.2.2 == "" || v.2.2 == "verbatim") = true :=
      (Bool.and_eq_true_iff.mp hok).1
    have hvs : tagsOk vs = true := (Bool.and_eq_true_iff.mp hok).2
    simp only [foldVisits, bumpLc, scannerR]
    simp only [if_neg (show ¬ (true = false) by decide), hv]
    rw [ih _ hvs]
    simp [lcOf, List.append_assoc, Nat.add_assoc]

theorem foldl_dep (l : Deps) :
    ∀ st : MState, l.foldl (fun s kv => (dep s kv.1).1) st =
      { st with deps := l.foldl (fun d kv => dictUpdate d kv.1 "") st.deps } := by
  induction l with
  | nil => intro st; rfl
  | cons kv l ih =>
    intro st
    simp only [List.foldl_cons]
    rw [ih]
    rfl

theorem compile_some_tagsOk (rt : Runtime) (L : Value → String)
    (mt : String → Option String) (text : String) (load : Option CacheDict)
    (st0 : MState) (out : CompileOut)
    (h : compile rt L mt text load st0 = some out) :
    tagsOk (visits text) = true := by
  by_contra hn
  have hf : tagsOk (visits text) = false := by
    cases hx : tagsOk (visits text)
    · rfl
    · exact absurd hx hn
  unfold compile at h
  simp only [process_parts, scanFold_ok] at h
  simp [hf] at h

theorem compile_eq (rt : Runtime) (L : Value → String)
    (mt : String → Option String) (text : String) (load : Option CacheDict)
    (st0 : MState) (hok : tagsOk (visits text) = true) :
    compile rt L mt text load st0 =
      (match cacheDecision
          ((withDefaults (load.getD {})).disable_cache.getD true)
          ((withDefaults (load.getD {})).argv.getD []) st0.argv
          ((withDefaults (load.getD {})).fragments.getD []) (scanFragments text)
          (resolvedeps mt (seedFrom ((withDefaults (load.getD {})).deps.getD [])))
          ((withDefaults (load.getD {})).deps.getD []) with
       | none =>
         compileHit mt text (withDefaults (load.getD {}))
           { st0 with fragments := scanFragments text,
                      lc := st0.lc + lcOf (visits text),
                      deps := resolvedeps mt
                        (seedFrom ((withDefaults (load.getD {})).deps.getD [])) }
       | some r =>
         compileMiss rt L mt text r st0.deps
           { st0 with fragments := scanFragments text,
                      lc := st0.lc + lcOf (visits text),
                      deps := resolvedeps mt
                        (seedFrom ((withDefaults (load.getD {})).deps.getD [])) }) := by
  unfold compile
  simp only [process_parts, scanFold_ok, hok, Bool.and_true]
  rw [if_neg (show ¬ (true = false) by decide)]
  rw [scanFold_state (visits text) { st0 with fragments := [] } hok]
  rw [foldl_dep]
  rfl

theorem cacheDecision_none_iff (a : Bool) (b c d e : List String) (f g : Deps) :
    cacheDecision a b c d e f g = none ↔
      (a = false ∧ b = c ∧ d = e ∧ dictEq f g = true) := by
  unfold cacheDecision
  split_ifs with h1 h2 h3 h4 <;> simp_all

theorem cacheDecision_disabled_iff (a : Bool) (b c d e : List String) (f g : Deps) :
    cacheDecision a b c d e f g = some CacheMiss.disabled ↔ a = true := by
  unfold cacheDecision
  split_ifs with h1 h2 h3 h4 <;> simp_all

theorem cacheDecision_argv_iff (a : Bool) (b c d e : List String) (f g : Deps) :
    cacheDecision a b c d e f g = some CacheMiss.argvDiffers ↔
      (a = false ∧ b ≠ c) := by
  unfold cacheDecision
  split_ifs with h1 h2 h3 h4 <;> simp_all

theorem cacheDecision_frag_iff (a : Bool) (b c d e : List String) (f g : Deps) :
    cacheDecision a b c d e f g = some CacheMiss.fragmentsDiffer ↔
      (a = false ∧ b = c ∧ d ≠ e) := by
  unfold cacheDecision
  split_ifs with h1 h2 h3 h4 <;> simp_all

theorem cacheDecision_deps_iff (a : Bool) (b c d e : List String) (f g : Deps) :
    cacheDecision a b c d e f g = some CacheMiss.depsDiffer ↔
      (a = false ∧ b = c ∧ d = e ∧ dictEq f g = false) := by
  unfold cacheDecision
  split_ifs with h1 h2 h3 h4 <;> simp_all

theorem compileHit_out (mt : String → Option String) (text : String)
    (cache : CacheDict) (st5 : MState) (out : CompileOut)
    (h : compileHit mt text cache st5 = some out) :
    out.cached = true ∧ out.miss = none ∧ out.persisted = none := by
  unfold compileHit at h
  dsimp only at h
  split at h
  · exact Option.noConfusion h
  · rw [Option.some.injEq] at h
    rw [← h]
    exact ⟨rfl, rfl, rfl⟩

theorem compileMiss_out (rt : Runtime) (L : Value → String)
    (mt : String → Option String) (text : String) (r : CacheMiss)
    (saveddeps : Deps) (st5 : MState) (out : CompileOut)
    (h : compileMiss rt L mt text r saveddeps st5 = some out) :
    out.cached = false ∧ out.miss = some r ∧
    out.persisted = some (persist out.st) := by
  unfold compileMiss at h
  dsimp only at h
  split at h
  · exact Option.noConfusion h
  · rw [Option.some.injEq] at h
    rw [← h]
    exact ⟨rfl, rfl, rfl⟩

/-- Claim C1: during a compile, the loaded (defaults-filled) cache record is
deemed valid if and only if all four checks hold: its disable flag is
false, the current argv equals its argv, the fragment sequence collected by
the scan pass equals its fragments, and the freshness snapshot obtained by
resolving its dependency keys equals its deps table.  The checks run in
this fixed order with a short-circuit at the first failure: the recorded
first-divergence diagnostic is disabled, argv, fragments or deps exactly
under the corresponding prefix of conditions. -/
theorem claim_C1_validity (rt : Runtime) (L : Value → String)
    (mt : String → Option String) (text : String) (load : Option CacheDict)
    (st0 : MState) (out : CompileOut)
    (h : compile rt L mt text load st0 = some out) :
    (out.cached = true ↔
      ((withDefaults (load.getD {})).disable_cache.getD true = false ∧
        (withDefaults (load.getD {})).argv.getD [] = st0.argv ∧
        (withDefaults (load.getD {})).fragments.getD [] = scanFragments text ∧
        dictEq
          (resolvedeps mt (seedFrom ((withDefaults (load.getD {})).deps.getD [])))
          ((withDefaults (load.getD {})).deps.getD []) = true)) ∧
    (out.miss = some CacheMiss.disabled ↔
      (withDefaults (load.getD {})).disable_cache.getD true = true) ∧
    (out.miss = some CacheMiss.argvDiffers ↔
      ((withDefaults (load.getD {})).disable_cache.getD true = false ∧
        (withDefaults (load.getD {})).argv.getD [] ≠ st0.argv)) ∧
    (out.miss = some CacheMiss.fragmentsDiffer ↔
      ((withDefaults (load.getD {})).disable_cache.getD true = false ∧
        (withDefaults (load.getD {})).argv.getD [] = st0.argv ∧
        (withDefaults (load.getD {})).fragments.getD [] ≠ scanFragments text)) ∧
    (out.miss = some CacheMiss.depsDiffer ↔
      ((withDefaults (load.getD {})).disable_cache.getD true = false ∧
        (withDefaults (load.getD {})).argv.getD [] = st0.argv ∧
        (withDefaults (load.getD {})).fragments.getD [] = scanFragments text ∧
        dictEq
          (resolvedeps mt (seedFrom ((withDefaults (load.getD {})).deps.getD [])))
          ((withDefaults (load.getD {})).deps.getD []) = false)) := by
  have hok := compile_some_tagsOk rt L mt text load st0 out h
  rw [compile_eq rt L mt text load st0 hok] at h
  cases hD : cacheDecision
      ((withDefaults (load.getD {})).disable_cache.getD true)
      ((withDefaults (load.getD {})).argv.getD []) st0.argv
      ((withDefaults (load.getD {})).fragments.getD []) (scanFragments text)
      (resolvedeps mt (seedFrom ((withDefaults (load.getD {})).deps.getD [])))
      ((withDefaults (load.getD {})).deps.getD []) with
  | none =>
    rw [hD] at h
    obtain ⟨hc, hm, _⟩ := compileHit_out _ _ _ _ _ h
    obtain ⟨ha, hb, hfr, hdq⟩ := (cacheDecision_none_iff _ _ _ _ _ _ _).mp hD
    refine ⟨?_, ?_, ?_, ?_, ?_⟩
    · rw [hc]
      simp [ha, hb, hfr, hdq]
    · rw [hm]
      simp [ha]
    · rw [hm]
      simp [hb]
    · rw [hm]
      simp [hfr]
    · rw [hm]
      simp [hdq]
  | some r =>
    rw [hD] at h
    obtain ⟨hc, hm, _⟩ := compileMiss_out _ _ _ _ _ _ _ _ h
    refine ⟨?_, ?_, ?_, ?_, ?_⟩
    · rw [hc]
      constructor
      · intro hx
        exact Bool.noConfusion hx
      · intro hx
        have h0 := (cacheDecision_none_iff _ _ _ _ _ _ _).mpr hx
        rw [hD] at h0
        exact Option.noConfusion h0
    · rw [hm, ← hD]
      exact cacheDecision_disabled_iff _ _ _ _ _ _ _
    · rw [hm, ← hD]
      exact cacheDecision_argv_iff _ _ _ _ _ _ _
    · rw [hm, ← hD]
      exact cacheDecision_frag_iff _ _ _ _ _ _ _
    · rw [hm, ← hD]
      exact cacheDecision_deps_iff _ _ _ _ _ _ _

/-- Witness for claim C1 at a concrete compile of the one-letter document x
with no prior cache: the compile computes concretely, and the recorded
first-divergence diagnostic is the disabled flag exactly because the
defaults-substituted record carries a true disable flag. -/
theorem claim_C1_witness :
    compile rtTrivial (fun _ => "") (fun _ => none) "x" none {} =
      some { st := { compiled := "x" }, cached := false,
             miss := some CacheMiss.disabled,
             persisted := some (persist { compiled := "x" }) } ∧
    (({ st := { compiled := "x" }, cached := false,
        miss := some CacheMiss.disabled,
        persisted := some (persist { compiled := "x" }) } : CompileOut).miss =
          some CacheMiss.disabled ↔
      (withDefaults ((none : Option CacheDict).getD {})).disable_cache.getD true
        = true) := by
  have hc : compile rtTrivial (fun _ => "") (fun _ => none) "x" none {} =
      some { st := { compiled := "x" }, cached := false,
             miss := some CacheMiss.disabled,
             persisted := some (persist { compiled := "x" }) } := by decide
  exact ⟨hc, (claim_C1_validity _ _ _ _ _ _ _ hc).2.1⟩

/-- Claim C5: a cache file load failure behaves exactly like a loaded empty
dictionary; the defaults substituted for missing fields are empty
fragments, outputs, deps and argv with a true disable flag; and any record
missing its disable flag (in particular the all-defaults one standing for
a missing or corrupt cache) forces the cache-miss path with the disabled
diagnostic, rather than aborting the compile. -/
theorem claim_C5_cache_load_failure (rt : Runtime) (L : Value → String)
    (mt : String → Option String) (text : String) (st0 : MState) :
    compile rt L mt text none st0 = compile rt L mt text (some {}) st0 ∧
    withDefaults {} =
      { fragments := some [], outputs := some [], deps := some [],
        argv := some [], disable_cache := some true } ∧
    (∀ c : CacheDict, c.disable_cache = none → ∀ out,
      compile rt L mt text (some c) st0 = some out →
      out.cached = false ∧ out.miss = some CacheMiss.disabled) := by
  refine ⟨rfl, rfl, ?_⟩
  intro c hcd out h
  have hok := compile_some_tagsOk rt L mt text (some c) st0 out h
  rw [compile_eq rt L mt text (some c) st0 hok] at h
  have hdis : (withDefaults ((some c).getD {})).disable_cache.getD true = true := by
    simp [withDefaults, hcd]
  have hD : cacheDecision
      ((withDefaults ((some c).getD {})).disable_cache.getD true)
      ((withDefaults ((some c).getD {})).argv.getD []) st0.argv
      ((withDefaults ((some c).getD {})).fragments.getD []) (scanFragments text)
      (resolvedeps mt (seedFrom ((withDefaults ((some c).getD {})).deps.getD [])))
      ((withDefaults ((some c).getD {})).deps.getD []) =
        some CacheMiss.disabled := by
    rw [cacheDecision_disabled_iff]
    exact hdis
  rw [hD] at h
  obtain ⟨hc2, hm2, _⟩ := compileMiss_out _ _ _ _ _ _ _ _ h
  exact ⟨hc2, hm2⟩

/-- Witness for claim C5 at a concrete compile of the one-letter document y
against a loaded cache dictionary with every key missing: the compile
computes concretely, takes the recompute path, and records the disabled
diagnostic. -/
theorem claim_C5_witness :
    compile rtTrivial (fun _ => "") (fun _ => none) "y" (some {}) {} =
      some { st := { compiled := "y" }, cached := false,
             miss := some CacheMiss.disabled,
             persisted := some (persist { compiled := "y" }) } ∧
    ({ st := { compiled := "y" }, cached := false,
       miss := some CacheMiss.disabled,
       persisted := some (persist { compiled := "y" }) } : CompileOut).cached
        = false ∧
    ({ st := { compiled := "y" }, cached := false,
       miss := some CacheMiss.disabled,
       persisted := some (persist { compiled := "y" }) } : CompileOut).miss =
      some CacheMiss.disabled := by
  have hc : compile rtTrivial (fun _ => "") (fun _ => none) "y" (some {}) {} =
      some { st := { compiled := "y" }, cached := false,
             miss := some CacheMiss.disabled,
             persisted := some (persist { compiled := "y" }) } := by decide
  have h := (claim_C5_cache_load_failure rtTrivial (fun _ => "")
    (fun _ => none) "y" {}).2.2 {} rfl _ hc
  exact ⟨hc, h.1, h.2⟩

/-- Claim C3 counterexample: a concrete compile of the empty document
against a valid prior record (caching not disabled: the record's and the
final state's disable flags are both false) ends as a cache hit with no
record persisted at all, contradicting the claim that a record is
persisted at the end of every compile whenever caching was not disabled.
The persist step of the source is guarded by the cache-miss condition, not
by the disable flag. -/
theorem claim_C3_counterexample :
    compile rtTrivial (fun _ => "") (fun _ => none) ""
        (some { fragments := some [], outputs := some [], deps := some [],
                argv := some [], disable_cache := some false }) {} =
      some { st := { subcount := -1 }, cached := true, miss := none,
             persisted := none } ∧
    ({ subcount := -1 } : MState).disable_cache = false := by
  exact ⟨by decide, rfl⟩

/-- Claim C3 (amended): at the end of every compile, a new Cache Record -
serialized from every instance field that is not name-mangled and not a
callable value - is persisted exactly when the compile took the
cache-miss (recompute) path; on a cache hit the persist step is skipped,
regardless of the disable flag. -/
theorem claim_C3_persist_iff_miss (rt : Runtime) (L : Value → String)
    (mt : String → Option String) (text : String) (load : Option CacheDict)
    (st0 : MState) (out : CompileOut)
    (h : compile rt L mt text load st0 = some out) :
    (out.persisted.isSome = true ↔ out.cached = false) ∧
    (out.cached = false → out.persisted = some (persist out.st)) := by
  unfold compile at h
  dsimp only at h
  split at h
  · exact Option.noConfusion h
  · split at h
    · obtain ⟨hc, _, hp⟩ := compileHit_out _ _ _ _ _ h
      refine ⟨?_, ?_⟩
      · rw [hp, hc]
        simp
      · rw [hc]
        intro hx
        exact Bool.noConfusion hx
    · obtain ⟨hc, _, hp⟩ := compileMiss_out _ _ _ _ _ _ _ _ h
      rw [hc, hp]
      exact ⟨by simp, fun _ => rfl⟩

/-- Witness for the amended claim C3 at the concrete cache-hit compile of
the counterexample: nothing is persisted, and indeed the compile was a
hit. -/
theorem claim_C3_witness :
    compile rtTrivial (fun _ => "") (fun _ => none) ""
        (some { fragments := some [], outputs := some [], deps := some [],
                argv := some [], disable_cache := some false }) {} =
      some { st := { subcount := -1 }, cached := true, miss := none,
             persisted := none } ∧
    (({ st := { subcount := -1 }, cached := true, miss := none,
        persisted := none } : CompileOut).persisted.isSome = true ↔
      ({ st := { subcount := -1 }, cached := true, miss := none,
         persisted := none } : CompileOut).cached = false) := by
  have hc : compile rtTrivial (fun _ => "") (fun _ => none) ""
      (some { fragments := some [], outputs := some [], deps := some [],
              argv := some [], disable_cache := some false }) {} =
      some { st := { subcount := -1 }, cached := true, miss := none,
             persisted := none } := by decide
  exact ⟨hc, (claim_C3_persist_iff_miss _ _ _ _ _ _ _ hc).1⟩

theorem preservesCore_refl (a : MState) : PreservesCore a a := ⟨rfl, rfl, rfl, id⟩

theorem preservesCore_trans {a b c : MState} (h1 : PreservesCore a b)
    (h2 : PreservesCore b c) : PreservesCore a c :=
  ⟨h2.1.trans h1.1, h2.2.1.trans h1.2.1, h2.2.2.1.trans h1.2.2.1,
    fun h => h2.2.2.2 (h1.2.2.2 h)⟩

theorem preserves_refl (a : MState) : Preserves a a := ⟨preservesCore_refl a, rfl⟩

theorem preserves_trans {a b c : MState} (h1 : Preserves a b)
    (h2 : Preserves b c) : Preserves a c :=
  ⟨preservesCore_trans h1.1 h2.1, h2.2.trans h1.2⟩

theorem setupfig_preserves (st : MState) (i : Nat) (pr : MState × String)
    (h : setupfig st i = some pr) : Preserves st pr.1 := by
  simp only [setupfig] at h
  repeat' split at h
  all_goals try exact Option.noConfusion h
  all_goals
    rw [Option.some.injEq] at h
    rw [← h]
    refine ⟨⟨rfl, rfl, rfl, ?_⟩, rfl⟩
    intro hnd
    first
      | exact hnd
      | exact keys_dictUpdate_nodup _ _ _ hnd

theorem mylatex_preserves (L : Value → String) (st : MState) (X : Value)
    (pr : MState × String) (h : mylatex L st X = some pr) : Preserves st pr.1 := by
  cases X
  case figure i =>
    simp only [mylatex] at h
    split at h
    · exact Option.noConfusion h
    · next pr2 hsf =>
      rw [Option.some.injEq] at h
      rw [← h]
      refine preserves_trans (setupfig_preserves st i pr2 hsf) ?_
      exact ⟨⟨rfl, rfl, rfl, id⟩, rfl⟩
  all_goals
    simp only [mylatex] at h
    rw [Option.some.injEq] at h
    rw [← h]
    exact preserves_refl st

theorem joinLatex_preserves (L : Value → String) :
    ∀ (vs : List Value) (st : MState) (pr : MState × String),
      joinLatex L st vs = some pr → Preserves st pr.1 := by
  intro vs
  induction vs with
  | nil =>
    intro st pr h
    rw [joinLatex, Option.some.injEq] at h
    rw [← h]
    exact preserves_refl st
  | cons v vs ih =>
    intro st pr h
    rw [joinLatex] at h
    split at h
    · exact Option.noConfusion h
    · next pr1 hml =>
      split at h
      · exact Option.noConfusion h
      · next q hjl =>
        rw [Option.some.injEq] at h
        rw [← h]
        exact preserves_trans (mylatex_preserves L st v pr1 hml) (ih pr1.1 q hjl)

theorem foldl_showallStep_none : ∀ l : List Nat, l.foldl showallStep none = none := by
  intro l
  induction l with
  | nil => rfl
  | cons i l ih => simpa [showallStep] using ih

theorem showall_fold_preserves :
    ∀ (l : List Nat) (st st' : MState),
      l.foldl showallStep (some st) = some st' → Preserves st st' := by
  intro l
  induction l with
  | nil =>
    intro st st' h
    rw [List.foldl_nil, Option.some.injEq] at h
    rw [← h]
    exact preserves_refl st
  | cons i l ih =>
    intro st st' h
    rw [List.foldl_cons] at h
    cases hs : setupfig st i with
    | none =>
      rw [show showallStep (some st) i = none from by simp [showallStep, hs]] at h
      rw [foldl_showallStep_none] at h
      exact Option.noConfusion h
    | some pr =>
      have hpre := setupfig_preserves st i pr hs
      by_cases hd : (getFig pr.1 i).drawn = some true
      · rw [show showallStep (some st) i = some pr.1 from by
          simp [showallStep, hs, hd]] at h
        exact preserves_trans hpre (ih pr.1 st' h)
      · rw [show showallStep (some st) i =
            some { pr.1 with accum := pr.1.accum ++ [Value.figure i] } from by
          simp [showallStep, hs, hd]] at h
        refine preserves_trans hpre (preserves_trans
          (show Preserves pr.1 { pr.1 with accum := pr.1.accum ++ [Value.figure i] }
            from ⟨⟨rfl, rfl, rfl, id⟩, rfl⟩) (ih _ st' h))

theorem showall_preserves (st st' : MState) (h : showall st = some st') :
    Preserves st st' :=
  showall_fold_preserves st.live st st' h

theorem autoshow_branch_preserves (st st' : MState)
    (h : (if st.autoshow then showall st else some st) = some st') :
    Preserves st st' := by
  split at h
  · exact showall_preserves st st' h
  · rw [Option.some.injEq] at h
    rw [← h]
    exact preserves_refl st

theorem run_preserves (rt : Runtime) (hT : Tame rt) (st : MState) (S : String)
    (k : Nat) (pr : MState × List Value) (h : run rt st S k = some pr) :
    Preserves st pr.1 := by
  unfold run at h
  dsimp only at h
  split at h
  · next pr1 hev =>
    split at h
    · exact Option.noConfusion h
    · next st3 hsh =>
      rw [Option.some.injEq] at h
      rw [← h]
      refine preserves_trans
        (show Preserves st { st with accum := [] } from ⟨⟨rfl, rfl, rfl, id⟩, rfl⟩) ?_
      refine preserves_trans (hT.1 _ _ pr1.1 pr1.2 hev) ?_
      refine preserves_trans
        (show Preserves pr1.1 { pr1.1 with accum := pr1.1.accum ++ [pr1.2] }
          from ⟨⟨rfl, rfl, rfl, id⟩, rfl⟩) ?_
      exact autoshow_branch_preserves _ _ hsh
  · next hev =>
    split at h
    · exact Option.noConfusion h
    · next st2 hsh =>
      rw [Option.some.injEq] at h
      rw [← h]
      refine preserves_trans
        (show Preserves st { st with accum := [] } from ⟨⟨rfl, rfl, rfl, id⟩, rfl⟩) ?_
      exact preserves_trans (hT.2 _ _) (autoshow_branch_preserves _ _ hsh)

theorem foldVisits_const_false
    (rho : MState × Bool → String → Nat → String → (MState × Bool) × String)
    (hg : ∀ (st : MState) (C : String) (k : Nat) (o : String),
      rho (st, false) C k o = ((st, false), "")) :
    ∀ (vs : List (String × Nat × String)) (st : MState),
      (foldVisits rho bumpLc (st, false) vs).1.2 = false := by
  intro vs
  induction vs with
  | nil => intro st; rfl
  | cons v vs ih =>
    intro st
    simp only [foldVisits, bumpLc]
    rw [hg]
    exact ih _

theorem getD_append_cons :
    ∀ (os : List String) (x : String) (rest : List String) (d : String),
      (os ++ x :: rest).getD os.length d = x := by
  intro os
  induction os with
  | nil => intro x rest d; rfl
  | cons a os ih =>
    intro x rest d
    simp only [List.cons_append, List.length_cons, List.getD_cons_succ]
    exact ih x rest d

theorem getLastD_append_single :
    ∀ (os : List String) (x : String) (d : String), (os ++ [x]).getLastD d = x := by
  intro os x d
  exact List.getLastD_concat d x os

theorem get_opt_eq_getD :
    ∀ (os : List String) (i : Nat), i < os.length → os[i]? = some (os.getD i "") := by
  intro os
  induction os with
  | nil => intro i h; simp at h
  | cons a os ih =>
    intro i h
    cases i with
    | zero => simp [List.getD]
    | succ j =>
      simp only [List.getElem?_cons_succ, List.getD_cons_succ]
      exact ih j (by simpa using Nat.lt_of_succ_lt_succ h)

theorem subFold (os : List String) :
    ∀ (vs : List (String × Nat × String)) (st : MState) (i : Nat),
      st.outputs = os → st.subcount + 1 = (i : Int) → tagsOk vs = true →
      i + vs.length ≤ os.length →
      foldVisits subberR bumpLc (st, true) vs =
        (({ st with subcount := st.subcount + vs.length,
                    lc := st.lc + lcOf vs }, true), repsOf os i vs) := by
  intro vs
  induction vs with
  | nil =>
    intro st i ho hi htags hlen
    simp [foldVisits, repsOf, lcOf]
  | cons v vs ih =>
    intro st i ho hi htags hlen
    rw [tagsOk, List.all_cons] at htags
    obtain ⟨hv, hvs⟩ := Bool.and_eq_true_iff.mp htags
    have hlt : i < os.length := by
      rw [List.length_cons] at hlen
      omega
    have htn : (st.subcount + 1).toNat = i := by
      rw [hi]
      exact Int.toNat_natCast i
    have hih := ih { st with
        lc := st.lc + (countNL v.1.data + 1),
        subcount := st.subcount + 1 } (i + 1) ho
      (by show st.subcount + 1 + 1 = ((i + 1 : Nat) : Int)
          rw [hi]
          push_cast
          ring)
      hvs (by rw [List.length_cons] at hlen; omega)
    by_cases ho2 : (v.2.2 == "") = true
    · have hidx : st.outputs[(st.subcount + 1).toNat]? = some (os.getD i "") := by
        rw [ho, htn]
        exact get_opt_eq_getD os i hlt
      have hstep : subberR (bumpLc (st, true) (countNL v.1.data + 1)) v.1 v.2.1 v.2.2 =
          (({ st with
              lc := st.lc + (countNL v.1.data + 1),
              subcount := st.subcount + 1 }, true), os.getD i "") := by
        simp only [subberR, bumpLc]
        rw [if_neg (show ¬ (true = false) by decide), if_pos ho2]
        simp only [hidx]
      simp only [foldVisits]
      rw [hstep]
      rw [hih]
      rw [repsOf, if_pos ho2]
      simp only [Prod.mk.injEq, MState.mk.injEq, lcOf, List.map_cons, List.sum_cons,
        and_true, true_and]
      refine ⟨?_, ?_⟩
      · omega
      · rw [List.length_cons]
        push_cast
        ring
    · have hv2 : (v.2.2 == "verbatim") = true := by
        rcases Bool.or_eq_true_iff.mp hv with h | h
        · exact absurd h ho2
        · exact h
      have hstep : subberR (bumpLc (st, true) (countNL v.1.data + 1)) v.1 v.2.1 v.2.2 =
          (({ st with
              lc := st.lc + (countNL v.1.data + 1),
              subcount := st.subcount + 1 }, true), v.1) := by
        simp only [subberR, bumpLc]
        rw [if_neg (show ¬ (true = false) by decide), if_neg ho2, if_pos hv2]
      simp only [foldVisits]
      rw [hstep]
      rw [hih]
      rw [repsOf, if_neg ho2]
      simp only [Prod.mk.injEq, MState.mk.injEq, lcOf, List.map_cons, List.sum_cons,
        and_true, true_and]
      refine ⟨?_, ?_⟩
      · omega
      · rw [List.length_cons]
        push_cast
        ring

theorem appendFold (rt : Runtime) (L : Value → String) (hT : Tame rt) :
    ∀ (vs : List (String × Nat × String)) (st : MState),
      tagsOk vs = true →
      ∀ stp reps,
        foldVisits (appenderR rt L) bumpLc (st, true) vs = (stp, reps) →
        stp.2 = true →
        PreservesCore st stp.1 ∧
        ∃ news, stp.1.outputs = st.outputs ++ news ∧ news.length = vs.length ∧
          reps = repsOf stp.1.outputs st.outputs.length vs := by
  intro vs
  induction vs with
  | nil =>
    intro st _ stp reps h _
    rw [foldVisits, Prod.mk.injEq] at h
    obtain ⟨h1, h2⟩ := h
    rw [← h1, ← h2]
    exact ⟨preservesCore_refl st, [], by simp, rfl, rfl⟩
  | cons v vs ih =>
    intro st htags stp reps h hok
    rw [tagsOk, List.all_cons] at htags
    obtain ⟨hv, hvs⟩ := Bool.and_eq_true_iff.mp htags
    cases hrun : run rt { st with lc := st.lc + (countNL v.1.data + 1) } v.1 v.2.1 with
    | none =>
      exfalso
      have hstep : appenderR rt L (bumpLc (st, true) (countNL v.1.data + 1))
          v.1 v.2.1 v.2.2 =
          (({ st with lc := st.lc + (countNL v.1.data + 1) }, false), "") := by
        simp only [appenderR, bumpLc]
        rw [if_neg (show ¬ (true = false) by decide)]
        simp only [hrun]
      simp only [foldVisits] at h
      rw [hstep] at h
      rw [Prod.mk.injEq] at h
      have hff := foldVisits_const_false (appenderR rt L) (fun st C k o => rfl) vs
        { st with lc := st.lc + (countNL v.1.data + 1) }
      rw [← h.1] at hok
      rw [hff] at hok
      exact Bool.noConfusion hok
    | some pr =>
      cases hjoin : joinLatex L pr.1 pr.2 with
      | none =>
        exfalso
        have hstep : appenderR rt L (bumpLc (st, true) (countNL v.1.data + 1))
            v.1 v.2.1 v.2.2 = ((pr.1, false), "") := by
          simp only [appenderR, bumpLc]
          rw [if_neg (show ¬ (true = false) by decide)]
          simp only [hrun, hjoin]
        simp only [foldVisits] at h
        rw [hstep] at h
        rw [Prod.mk.injEq] at h
        have hff := foldVisits_const_false (appenderR rt L) (fun st C k o => rfl) vs pr.1
        rw [← h.1] at hok
        rw [hff] at hok
        exact Bool.noConfusion hok
      | some q =>
        have hpre : Preserves st q.1 := by
          refine preserves_trans (show Preserves st
            { st with lc := st.lc + (countNL v.1.data + 1) }
            from ⟨⟨rfl, rfl, rfl, id⟩, rfl⟩) ?_
          exact preserves_trans (run_preserves rt hT _ v.1 v.2.1 pr hrun)
            (joinLatex_preserves L pr.2 pr.1 q hjoin)
        have hout : q.1.outputs = st.outputs := hpre.2
        have hrep : ∀ rep,
            appenderR rt L (bumpLc (st, true) (countNL v.1.data + 1))
              v.1 v.2.1 v.2.2 =
              (({ q.1 with outputs := q.1.outputs ++ [q.2] }, true), rep) →
            foldVisits (appenderR rt L) bumpLc (st, true) (v :: vs) =
              ((foldVisits (appenderR rt L) bumpLc
                  ({ q.1 with outputs := q.1.outputs ++ [q.2] }, true) vs).1,
                rep.data ::
                  (foldVisits (appenderR rt L) bumpLc
                    ({ q.1 with outputs := q.1.outputs ++ [q.2] }, true) vs).2) := by
          intro rep hstep
          simp only [foldVisits]
          rw [hstep]
        have key : ∀ rep,
            foldVisits (appenderR rt L) bumpLc (st, true) (v :: vs) =
              ((foldVisits (appenderR rt L) bumpLc
                  ({ q.1 with outputs := q.1.outputs ++ [q.2] }, true) vs).1,
                rep.data ::
                  (foldVisits (appenderR rt L) bumpLc
                    ({ q.1 with outputs := q.1.outputs ++ [q.2] }, true) vs).2) →
            (if (v.2.2 == "") = true then rep = q.2 else rep = v.1) →
            PreservesCore st stp.1 ∧
            ∃ news, stp.1.outputs = st.outputs ++ news ∧
              news.length = (v :: vs).length ∧
              reps = repsOf stp.1.outputs st.outputs.length (v :: vs) := by
          intro rep hfold hrepval
          rw [hfold, Prod.mk.injEq] at h
          obtain ⟨h1, h2⟩ := h
          have hok2 : (foldVisits (appenderR rt L) bumpLc
              ({ q.1 with outputs := q.1.outputs ++ [q.2] }, true) vs).1.2 = true := by
            rw [h1]
            exact hok
          obtain ⟨hcore, news', hno, hnl, hreps⟩ :=
            ih { q.1 with outputs := q.1.outputs ++ [q.2] } hvs
              (foldVisits (appenderR rt L) bumpLc
                ({ q.1 with outputs := q.1.outputs ++ [q.2] }, true) vs).1
              (foldVisits (appenderR rt L) bumpLc
                ({ q.1 with outputs := q.1.outputs ++ [q.2] }, true) vs).2
              rfl hok2
          have hsp : stp.1.outputs = st.outputs ++ q.2 :: news' := by
            rw [← h1, hno]
            show ({ q.1 with outputs := q.1.outputs ++ [q.2] } : MState).outputs ++ news' =
              st.outputs ++ q.2 :: news'
            show (q.1.outputs ++ [q.2]) ++ news' = st.outputs ++ q.2 :: news'
            rw [hout, List.append_assoc]
            rfl
          refine ⟨?_, q.2 :: news', hsp, ?_, ?_⟩
          · rw [← h1]
            refine preservesCore_trans hpre.1 (preservesCore_trans ?_ hcore)
            exact ⟨rfl, rfl, rfl, id⟩
          · rw [List.length_cons, List.length_cons, hnl]
          · rw [← h2, hreps]
            have hlen1 : ({ q.1 with outputs := q.1.outputs ++ [q.2] } : MState).outputs.length =
                st.outputs.length + 1 := by
              show (q.1.outputs ++ [q.2]).length = st.outputs.length + 1
              rw [List.length_append, hout]
              rfl
            rw [repsOf]
            by_cases ho2 : (v.2.2 == "") = true
            · rw [if_pos ho2]
              rw [if_pos ho2] at hrepval
              rw [hrepval]
              have hgd : stp.1.outputs.getD st.outputs.length "" = q.2 := by
                rw [hsp]
                exact getD_append_cons st.outputs q.2 news' ""
              rw [hgd, ← h1, hlen1]
            · rw [if_neg ho2]
              rw [if_neg ho2] at hrepval
              rw [hrepval]
              rw [← h1, hlen1]
        by_cases ho2 : (v.2.2 == "") = true
        · refine key q.2 (hrep q.2 ?_) (by rw [if_pos ho2])
          simp only [appenderR, bumpLc]
          rw [if_neg (show ¬ (true = false) by decide)]
          simp only [hrun, hjoin]
          rw [if_pos ho2]
          rw [show ({ q.1 with outputs := q.1.outputs ++ [q.2] } : MState).outputs.getLastD ""
              = q.2 from by
            show (q.1.outputs ++ [q.2]).getLastD "" = q.2
            exact getLastD_append_single q.1.outputs q.2 ""]
        · have hv2 : (v.2.2 == "verbatim") = true := by
            rcases Bool.or_eq_true_iff.mp hv with hx | hx
            · exact absurd hx ho2
            · exact hx
          refine key v.1 (hrep v.1 ?_) (by rw [if_neg ho2])
          simp only [appenderR, bumpLc]
          rw [if_neg (show ¬ (true = false) by decide)]
          simp only [hrun, hjoin]
          rw [if_neg ho2, if_pos hv2]

theorem bool_true_of_not_false {b : Bool} (h : ¬ b = false) : b = true := by
  cases b
  · exact absurd rfl h
  · rfl

theorem repsOf_eq_enumFrom (os : List String) :
    ∀ (vs : List (String × Nat × String)) (i : Nat),
      repsOf os i vs = (List.enumFrom i vs).map
        (fun p => if p.2.2.2 == "" then (os.getD p.1 "").data else p.2.1.data) := by
  intro vs
  induction vs with
  | nil => intro i; rfl
  | cons v vs ih =>
    intro i
    simp only [repsOf, List.enumFrom, List.map_cons]
    rw [ih]

theorem compileMiss_struct (rt : Runtime) (L : Value → String)
    (mt : String → Option String) (text : String) (r : CacheMiss)
    (saveddeps : Deps) (st5 : MState) (out : CompileOut) (hT : Tame rt)
    (hok : tagsOk (visits text) = true)
    (h : compileMiss rt L mt text r saveddeps st5 = some out) :
    out.st.fragments = st5.fragments ∧
    out.st.outputs.length = (visits text).length := by
  unfold compileMiss at h
  simp only [process_parts] at h
  split at h
  · exact Option.noConfusion h
  · rename_i hp2
    rw [Option.some.injEq] at h
    have hp2t := bool_true_of_not_false hp2
    obtain ⟨hcore, news, hno, hnl, -⟩ :=
      appendFold rt L hT (visits text)
        { st5 with deps := saveddeps, outputs := [] } hok _ _ rfl hp2t
    constructor
    · rw [← h]
      exact hcore.1
    · rw [← h]
      show (foldVisits (appenderR rt L) bumpLc
        ({ st5 with deps := saveddeps, outputs := [] }, true)
        (visits text)).1.1.outputs.length = (visits text).length
      rw [hno]
      show (([] : List String) ++ news).length = (visits text).length
      rw [List.nil_append]
      exact hnl

/-- Claim C10: after every cache-miss compile (under a tame runtime, one
whose fragment code leaves the compiler bookkeeping alone), the outputs
list holds exactly one entry per scanned fragment, verbatim fragments
included; and the cached-substitution pass advances the position counter
once per visited fragment, verbatim or plain, handing the plain fragment at
scan position i the stored output at index i and the verbatim fragment its
own source text, which is the alignment that makes positional cache restore
sound. -/
theorem claim_C10_alignment (rt : Runtime) (L : Value → String)
    (mt : String → Option String) (hT : Tame rt) :
    (∀ (text : String) (load : Option CacheDict) (st0 : MState)
        (out : CompileOut),
      compile rt L mt text load st0 = some out → out.cached = false →
      out.st.fragments = scanFragments text ∧
      out.st.outputs.length = (scanFragments text).length) ∧
    (∀ (vs : List (String × Nat × String)) (st : MState),
      tagsOk vs = true → st.subcount = -1 → vs.length ≤ st.outputs.length →
      (foldVisits subberR bumpLc (st, true) vs).1.1.subcount =
        -1 + (vs.length : Int) ∧
      (foldVisits subberR bumpLc (st, true) vs).2 =
        (List.enumFrom 0 vs).map
          (fun p => if p.2.2.2 == "" then (st.outputs.getD p.1 "").data
            else p.2.1.data)) := by
  constructor
  · intro text load st0 out h hmiss
    have hok := compile_some_tagsOk rt L mt text load st0 out h
    rw [compile_eq rt L mt text load st0 hok] at h
    cases hD : cacheDecision
        ((withDefaults (load.getD {})).disable_cache.getD true)
        ((withDefaults (load.getD {})).argv.getD []) st0.argv
        ((withDefaults (load.getD {})).fragments.getD []) (scanFragments text)
        (resolvedeps mt (seedFrom ((withDefaults (load.getD {})).deps.getD [])))
        ((withDefaults (load.getD {})).deps.getD []) with
    | none =>
      rw [hD] at h
      obtain ⟨hc, -, -⟩ := compileHit_out _ _ _ _ _ h
      rw [hc] at hmiss
      exact Bool.noConfusion hmiss
    | some r =>
      rw [hD] at h
      have hs := compileMiss_struct rt L mt text r st0.deps _ out hT hok h
      refine ⟨hs.1, ?_⟩
      rw [scanFragments, List.length_map]
      exact hs.2
  · intro vs st htags hsc hlen
    have hsf := subFold st.outputs vs st 0 rfl
      (by rw [hsc]; decide) htags (by omega)
    constructor
    · rw [hsf]
      show st.subcount + (vs.length : Int) = -1 + (vs.length : Int)
      rw [hsc]
    · rw [hsf]
      show repsOf st.outputs 0 vs = _
      rw [repsOf_eq_enumFrom]

/-- Witness for claim C10 at the concrete document a@\x7b1\x7d b (one plain
fragment) compiled with no prior cache under the trivial runtime: the
compile computes concretely to a miss with exactly one output entry for the
one scanned fragment, and the substitution pass over the same visit
sequence with a one-entry outputs list ends with the counter advanced once
and hands the plain fragment the stored output at index zero. -/
theorem claim_C10_witness :
    compile rtTrivial (fun _ => "") (fun _ => none) "a@\x7b1\x7d b" none {} =
      some { st := { fragments := ["1"], outputs := [""], lc := 2,
                     compiled := "a b" },
             cached := false, miss := some CacheMiss.disabled,
             persisted := some (persist
               { fragments := ["1"], outputs := [""], lc := 2,
                 compiled := "a b" }) } ∧
    ({ fragments := ["1"], outputs := [""], lc := 2,
       compiled := "a b" } : MState).outputs.length =
      (scanFragments "a@\x7b1\x7d b").length ∧
    (foldVisits subberR bumpLc
        (({ subcount := -1, outputs := ["X"] } : MState), true)
        (visits "a@\x7b1\x7d b")).1.1.subcount =
      -1 + ((visits "a@\x7b1\x7d b").length : Int) ∧
    (foldVisits subberR bumpLc
        (({ subcount := -1, outputs := ["X"] } : MState), true)
        (visits "a@\x7b1\x7d b")).2 =
      (List.enumFrom 0 (visits "a@\x7b1\x7d b")).map
        (fun p => if p.2.2.2 == "" then
            (({ subcount := -1, outputs := ["X"] } : MState).outputs.getD
              p.1 "").data
          else p.2.1.data) := by
  have hT : Tame rtTrivial :=
    ⟨fun st S st1 v h => Option.noConfusion h, fun st S => preserves_refl st⟩
  have h := claim_C10_alignment rtTrivial (fun _ => "") (fun _ => none) hT
  have hc : compile rtTrivial (fun _ => "") (fun _ => none) "a@\x7b1\x7d b"
      none {} =
      some { st := { fragments := ["1"], outputs := [""], lc := 2,
                     compiled := "a b" },
             cached := false, miss := some CacheMiss.disabled,
             persisted := some (persist
               { fragments := ["1"], outputs := [""], lc := 2,
                 compiled := "a b" }) } := by decide
  refine ⟨hc, ?_, ?_, ?_⟩
  · exact (h.1 "a@\x7b1\x7d b" none {} _ hc (by decide)).2
  · exact (h.2 (visits "a@\x7b1\x7d b") { subcount := -1, outputs := ["X"] }
      (by decide) (by decide) (by decide)).1
  · exact (h.2 (visits "a@\x7b1\x7d b") { subcount := -1, outputs := ["X"] }
      (by decide) (by decide) (by decide)).2

/-- Claim C6: on the recompute path, a fragment tagged verbatim with body
x=1 is still executed (run is invoked on it in the document scope, so its
side effects take place, and its joined rendered output is computed and
appended to the outputs list) but the text substituted into the output
document is the fragment's own source text x=1; the same fragment with the
empty tag substitutes the joined rendered output of the identical
execution instead. -/
theorem claim_C6_verbatim_fidelity (rt : Runtime) (L : Value → String)
    (st st1 st2 : MState) (vals : List Value) (j : String)
    (hrun : run rt { st with lc := st.lc + 1 } "x=1" 0 = some (st1, vals))
    (hjoin : joinLatex L st1 vals = some (st2, j)) :
    process (appenderR rt L) (st, true) "@[verbatim]\x7bx=1\x7d" =
      (({ st2 with outputs := st2.outputs ++ [j] }, true), "x=1") ∧
    process (appenderR rt L) (st, true) "@\x7bx=1\x7d" =
      (({ st2 with outputs := st2.outputs ++ [j] }, true), j) := by
  have hstepV : appenderR rt L
      (bumpLc (st, true) (countNL (String.data "x=1") + 1)) "x=1" 0 "verbatim" =
      (({ st2 with outputs := st2.outputs ++ [j] }, true), "x=1") := by
    simp only [appenderR, bumpLc]
    rw [if_neg (show ¬ (true = false) by decide)]
    rw [show countNL (String.data "x=1") + 1 = 1 from by decide]
    simp only [hrun, hjoin]
    rw [if_neg (show ¬ ((("verbatim" : String) == "") = true) by decide)]
    rw [if_pos (show (("verbatim" : String) == "verbatim") = true by decide)]
  have hstepP : appenderR rt L
      (bumpLc (st, true) (countNL (String.data "x=1") + 1)) "x=1" 0 "" =
      (({ st2 with outputs := st2.outputs ++ [j] }, true), j) := by
    simp only [appenderR, bumpLc]
    rw [if_neg (show ¬ (true = false) by decide)]
    rw [show countNL (String.data "x=1") + 1 = 1 from by decide]
    simp only [hrun, hjoin]
    rw [if_pos (show ((("" : String) == "") = true) by decide)]
    rw [show ({ st2 with outputs := st2.outputs ++ [j] } : MState).outputs.getLastD ""
        = j from getLastD_append_single st2.outputs j ""]
  constructor
  · rw [process_parts]
    rw [show visits "@[verbatim]\x7bx=1\x7d" = [("x=1", 0, "verbatim")] from by decide]
    simp only [foldVisits]
    rw [hstepV]
    rw [Prod.mk.injEq]
    exact ⟨rfl, rfl⟩
  · rw [process_parts]
    rw [show visits "@\x7bx=1\x7d" = [("x=1", 0, "")] from by decide]
    simp only [foldVisits]
    rw [hstepP]
    rw [Prod.mk.injEq]
    refine ⟨rfl, ?_⟩
    rw [show segsGo (String.data "@\x7bx=1\x7d").length (String.data "@\x7bx=1\x7d")
        none = ([], [[]]) from by decide]
    show String.mk ([] ++ glue [[]] (String.data j :: [])) = j
    simp only [glue, List.nil_append, List.append_nil]

/-- Witness for claim C6 under a concrete runtime whose execution has an
observable side effect (it binds x to the string 1 in the document scope)
and produces the value V: the verbatim document substitutes the literal
source x=1, the plain document substitutes the rendered V, and in both
cases the final state carries the side-effect binding and the computed
output entry. -/
theorem claim_C6_witness :
    process (appenderR
        { tryEval := fun st _ =>
            some ({ st with scope := [("x", Value.str "1")] }, Value.str "V"),
          exec := fun st _ => st } (fun _ => ""))
        (({} : MState), true) "@[verbatim]\x7bx=1\x7d" =
      ((({ lc := 1, outputs := ["V"], scope := [("x", Value.str "1")],
           accum := [Value.str "V"] } : MState), true), "x=1") ∧
    process (appenderR
        { tryEval := fun st _ =>
            some ({ st with scope := [("x", Value.str "1")] }, Value.str "V"),
          exec := fun st _ => st } (fun _ => ""))
        (({} : MState), true) "@\x7bx=1\x7d" =
      ((({ lc := 1, outputs := ["V"], scope := [("x", Value.str "1")],
           accum := [Value.str "V"] } : MState), true), "V") ∧
    ({ lc := 1, outputs := ["V"], scope := [("x", Value.str "1")],
       accum := [Value.str "V"] } : MState).scope = [("x", Value.str "1")] := by
  have h := claim_C6_verbatim_fidelity
    { tryEval := fun st _ =>
        some ({ st with scope := [("x", Value.str "1")] }, Value.str "V"),
      exec := fun st _ => st } (fun _ => "") {}
    { lc := 1, scope := [("x", Value.str "1")], accum := [Value.str "V"] }
    { lc := 1, scope := [("x", Value.str "1")], accum := [Value.str "V"] }
    [Value.str "V"] "V" (by decide) (by decide)
  exact ⟨h.1, h.2, rfl⟩

/-! ### The dependency-snapshot roundtrip and the idempotent cache hit -/
theorem keys_resolvedeps (mt : String → Option String) :
    ∀ d : Deps, (resolvedeps mt d).map Prod.fst = d.map Prod.fst := by
  intro d
  induction d with
  | nil => rfl
  | cons p d ih => simp only [resolvedeps, List.map_cons] at ih ⊢; rw [ih]

theorem resolvedeps_resolvedeps (mt : String → Option String) :
    ∀ d : Deps, resolvedeps mt (resolvedeps mt d) = resolvedeps mt d := by
  intro d
  induction d with
  | nil => rfl
  | cons p d ih => simp only [resolvedeps, List.map_cons] at ih ⊢; rw [ih]

theorem resolvedeps_map_empty (mt : String → Option String) :
    ∀ d : Deps, resolvedeps mt (d.map (fun p => (p.1, ""))) = resolvedeps mt d := by
  intro d
  induction d with
  | nil => rfl
  | cons p d ih => simp only [resolvedeps, List.map_cons] at ih ⊢; rw [ih]

theorem dlookup_append_none {α β : Type} [BEq α] (k : α) :
    ∀ (a b : List (α × β)), dlookup a k = none → dlookup b k = none →
      dlookup (a ++ b) k = none := by
  intro a b
  induction a with
  | nil => intro _ hb; simpa using hb
  | cons p a ih =>
    intro ha hb
    by_cases hp : (p.1 == k) = true
    · simp [dlookup, hp] at ha
    · rw [List.cons_append]
      simp only [dlookup, hp, if_false, if_neg hp] at ha ⊢
      exact ih ha hb

theorem foldl_update_nodup :
    ∀ (d : Deps) (acc : Deps), (d.map Prod.fst).Nodup →
      (∀ k ∈ d.map Prod.fst, dlookup acc k = none) →
      d.foldl (fun a kv => dictUpdate a kv.1 "") acc =
        acc ++ d.map (fun p => (p.1, "")) := by
  intro d
  induction d with
  | nil => intro acc _ _; simp
  | cons p d ih =>
    intro acc hnd hacc
    rw [List.map_cons, List.nodup_cons] at hnd
    have hlp : dlookup acc p.1 = none := hacc p.1 (by simp)
    have hupd : dictUpdate acc p.1 "" = acc ++ [(p.1, "")] := by
      unfold dictUpdate
      rw [hlp]
      rfl
    rw [List.foldl_cons]
    show d.foldl (fun a kv => dictUpdate a kv.1 "") (dictUpdate acc p.1 "") = _
    rw [hupd]
    rw [ih (acc ++ [(p.1, "")]) hnd.2 ?_]
    · rw [List.map_cons, List.append_assoc]
      rfl
    · intro k hk
      refine dlookup_append_none k acc [(p.1, "")] (hacc k (by simp [hk])) ?_
      have hne : ¬ (p.1 == k) = true := by
        intro hx
        exact hnd.1 (by rw [show p.1 = k by simpa using hx]; exact hk)
      simp [dlookup, hne]

theorem seedFrom_nodup (d : Deps) (hnd : (d.map Prod.fst).Nodup) :
    seedFrom d = d.map (fun p => (p.1, "")) := by
  unfold seedFrom
  rw [foldl_update_nodup d [] hnd (fun k _ => rfl)]
  rfl

theorem deps_roundtrip (mt : String → Option String) (d : Deps)
    (hnd : (d.map Prod.fst).Nodup) :
    resolvedeps mt (seedFrom (resolvedeps mt d)) = resolvedeps mt d := by
  have h1 : ((resolvedeps mt d).map Prod.fst).Nodup := by
    rw [keys_resolvedeps]
    exact hnd
  rw [seedFrom_nodup _ h1, resolvedeps_map_empty, resolvedeps_resolvedeps]

theorem compileMiss_full (rt : Runtime) (L : Value → String)
    (mt : String → Option String) (text : String) (r : CacheMiss)
    (saveddeps : Deps) (st5 : MState) (out : CompileOut) (hT : Tame rt)
    (hok : tagsOk (visits text) = true)
    (h : compileMiss rt L mt text r saveddeps st5 = some out) :
    out.st.fragments = st5.fragments ∧
    out.st.argv = st5.argv ∧
    out.st.disable_cache = st5.disable_cache ∧
    out.st.outputs.length = (visits text).length ∧
    (∃ d1 : Deps, out.st.deps = resolvedeps mt d1 ∧
      ((saveddeps.map Prod.fst).Nodup → (d1.map Prod.fst).Nodup)) ∧
    out.st.compiled =
      String.mk ((segsGo (String.data text).length (String.data text) none).1 ++
        glue (segsGo (String.data text).length (String.data text) none).2
          (repsOf out.st.outputs 0 (visits text))) := by
  unfold compileMiss at h
  simp only [process_parts] at h
  split at h
  · exact Option.noConfusion h
  · rename_i hp2
    rw [Option.some.injEq] at h
    have hp2t := bool_true_of_not_false hp2
    obtain ⟨hcore, news, hno, hnl, hreps⟩ :=
      appendFold rt L hT (visits text)
        { st5 with deps := saveddeps, outputs := [] } hok _ _ rfl hp2t
    refine ⟨?_, ?_, ?_, ?_, ?_, ?_⟩
    · rw [← h]
      exact hcore.1
    · rw [← h]
      exact hcore.2.1
    · rw [← h]
      exact hcore.2.2.1
    · rw [← h]
      show (foldVisits (appenderR rt L) bumpLc
        ({ st5 with deps := saveddeps, outputs := [] }, true)
        (visits text)).1.1.outputs.length = (visits text).length
      rw [hno]
      show (([] : List String) ++ news).length = (visits text).length
      rw [List.nil_append]
      exact hnl
    · refine ⟨(foldVisits (appenderR rt L) bumpLc
        ({ st5 with deps := saveddeps, outputs := [] }, true)
        (visits text)).1.1.deps, ?_, ?_⟩
      · rw [← h]
      · exact hcore.2.2.2
    · rw [← h]
      rw [hreps]
      rfl

theorem compileHit_eq (mt : String → Option String) (text : String)
    (cache : CacheDict) (st5 : MState)
    (hok : tagsOk (visits text) = true)
    (hlen : (visits text).length ≤ (adopt st5 cache).outputs.length) :
    compileHit mt text cache st5 =
      some { st :=
               { adopt st5 cache with
                 subcount := -1 + ((visits text).length : Int),
                 lc := (adopt st5 cache).lc + lcOf (visits text),
                 compiled := String.mk
                   ((segsGo (String.data text).length (String.data text) none).1 ++
                     glue (segsGo (String.data text).length (String.data text)
                         none).2
                       (repsOf (adopt st5 cache).outputs 0 (visits text))),
                 deps := resolvedeps mt (adopt st5 cache).deps },
             cached := true, miss := none, persisted := none } := by
  unfold compileHit
  simp only [process_parts]
  rw [subFold (adopt st5 cache).outputs (visits text)
    { adopt st5 cache with subcount := -1 } 0 rfl
    (by show (-1 : Int) + 1 = ((0 : Nat) : Int); decide) hok (by omega)]
  dsimp only
  rw [if_neg (show ¬ (true = false) by decide)]

/-- Claim C2: compiling a document twice in a row with the same text, the
same invocation arguments and unchanged dependency resources (the same
filesystem collaborator) performs fresh execution exactly once.  The first
compile, with no prior cache, takes the recompute path; feeding its
persisted record to a second compile yields a cache hit whose compiled text
is byte-identical to the first compile's, and whose entire outcome is
independent of the runtime and the renderer: the second compile returns
the very same result for every runtime oracle and every renderer, which is
the formal sense in which zero fragment executions occur.  The runtime is
assumed tame (fragment code leaves the compiler bookkeeping alone), the
initial dependency table duplicate-free, and caching enabled. -/
theorem claim_C2_idempotent_cache_hit (rt : Runtime) (L : Value → String)
    (mt : String → Option String) (text : String) (st0 : MState)
    (out1 : CompileOut) (hT : Tame rt)
    (hnd : (st0.deps.map Prod.fst).Nodup)
    (hdis : st0.disable_cache = false)
    (h1 : compile rt L mt text none st0 = some out1) :
    out1.cached = false ∧
    out1.persisted = some (persist out1.st) ∧
    ∃ out2 : CompileOut,
      compile rt L mt text (some (persist out1.st)) st0 = some out2 ∧
      out2.cached = true ∧
      out2.st.compiled = out1.st.compiled ∧
      ∀ (rt' : Runtime) (L' : Value → String),
        compile rt' L' mt text (some (persist out1.st)) st0 = some out2 := by
  have hok := compile_some_tagsOk rt L mt text none st0 out1 h1
  rw [compile_eq rt L mt text none st0 hok] at h1
  have hD1 : cacheDecision
      ((withDefaults ((none : Option CacheDict).getD {})).disable_cache.getD true)
      ((withDefaults ((none : Option CacheDict).getD {})).argv.getD []) st0.argv
      ((withDefaults ((none : Option CacheDict).getD {})).fragments.getD [])
      (scanFragments text)
      (resolvedeps mt
        (seedFrom ((withDefaults ((none : Option CacheDict).getD {})).deps.getD [])))
      ((withDefaults ((none : Option CacheDict).getD {})).deps.getD []) =
        some CacheMiss.disabled := by
    rw [cacheDecision_disabled_iff]
    rfl
  rw [hD1] at h1
  obtain ⟨hfrag, hargv, hdisp, hlen, ⟨d1, hdeps, hd1nd⟩, hcomp⟩ :=
    compileMiss_full rt L mt text CacheMiss.disabled st0.deps _ out1 hT hok h1
  obtain ⟨hc1, hm1, hp1⟩ := compileMiss_out _ _ _ _ _ _ _ _ h1
  have hargv2 : out1.st.argv = st0.argv := hargv
  have hfrag2 : out1.st.fragments = scanFragments text := hfrag
  have hdis2 : out1.st.disable_cache = false := hdisp.trans hdis
  have hnd1 : (d1.map Prod.fst).Nodup := hd1nd hnd
  have hdepsnd : (out1.st.deps.map Prod.fst).Nodup := by
    rw [hdeps, keys_resolvedeps]
    exact hnd1
  have hround : resolvedeps mt (seedFrom out1.st.deps) = out1.st.deps := by
    rw [hdeps]
    exact deps_roundtrip mt d1 hnd1
  have hdq : dictEq (resolvedeps mt (seedFrom out1.st.deps)) out1.st.deps
      = true := by
    rw [hround]
    exact dictEq_self_of_nodup out1.st.deps hdepsnd
  have hD2 : cacheDecision
      ((withDefaults ((some (persist out1.st)).getD {})).disable_cache.getD true)
      ((withDefaults ((some (persist out1.st)).getD {})).argv.getD []) st0.argv
      ((withDefaults ((some (persist out1.st)).getD {})).fragments.getD [])
      (scanFragments text)
      (resolvedeps mt
        (seedFrom ((withDefaults
          ((some (persist out1.st)).getD {})).deps.getD [])))
      ((withDefaults ((some (persist out1.st)).getD {})).deps.getD []) =
        none := by
    rw [cacheDecision_none_iff]
    refine ⟨?_, ?_, ?_, ?_⟩
    · show out1.st.disable_cache = false
      exact hdis2
    · show out1.st.argv = st0.argv
      exact hargv2
    · show out1.st.fragments = scanFragments text
      exact hfrag2
    · show dictEq (resolvedeps mt (seedFrom out1.st.deps)) out1.st.deps = true
      exact hdq
  have hlen2 : (visits text).length ≤
      (adopt { st0 with
          fragments := scanFragments text,
          lc := st0.lc + lcOf (visits text),
          deps := resolvedeps mt (seedFrom out1.st.deps) }
        (persist out1.st)).outputs.length := by
    show (visits text).length ≤ out1.st.outputs.length
    omega
  have hhit := compileHit_eq mt text (persist out1.st)
    { st0 with
      fragments := scanFragments text,
      lc := st0.lc + lcOf (visits text),
      deps := resolvedeps mt (seedFrom out1.st.deps) } hok hlen2
  have h2 : ∀ (rt' : Runtime) (L' : Value → String),
      compile rt' L' mt text (some (persist out1.st)) st0 =
        compileHit mt text (persist out1.st)
          { st0 with
            fragments := scanFragments text,
            lc := st0.lc + lcOf (visits text),
            deps := resolvedeps mt (seedFrom out1.st.deps) } := by
    intro rt' L'
    rw [compile_eq rt' L' mt text (some (persist out1.st)) st0 hok]
    rw [hD2]
    rfl
  refine ⟨hc1, hp1, _, (h2 rt L).trans hhit, rfl, ?_, fun rt' L' =>
    (h2 rt' L').trans hhit⟩
  show String.mk
      ((segsGo (String.data text).length (String.data text) none).1 ++
        glue (segsGo (String.data text).length (String.data text) none).2
          (repsOf out1.st.outputs 0 (visits text))) = out1.st.compiled
  exact hcomp.symm

/-- Witness for claim C2 at the concrete document c@\x7b2\x7d d under the
trivial runtime: the first compile, with no prior cache, recomputes and
yields the compiled text c d; feeding its persisted record to a second
compile yields a cache hit with the byte-identical compiled text. -/
theorem claim_C2_witness :
    compile rtTrivial (fun _ => "") (fun _ => none) "c@\x7b2\x7d d" none {} =
      some { st := { fragments := ["2"], outputs := [""], lc := 2,
                     compiled := "c d" },
             cached := false, miss := some CacheMiss.disabled,
             persisted := some (persist
               { fragments := ["2"], outputs := [""], lc := 2,
                 compiled := "c d" }) } ∧
    ∃ out2 : CompileOut,
      compile rtTrivial (fun _ => "") (fun _ => none) "c@\x7b2\x7d d"
          (some (persist
            ({ st := { fragments := ["2"], outputs := [""], lc := 2,
                       compiled := "c d" },
               cached := false, miss := some CacheMiss.disabled,
               persisted := some (persist
                 { fragments := ["2"], outputs := [""], lc := 2,
                   compiled := "c d" }) } : CompileOut).st)) {} = some out2 ∧
      out2.cached = true ∧
      out2.st.compiled =
        ({ st := { fragments := ["2"], outputs := [""], lc := 2,
                   compiled := "c d" },
           cached := false, miss := some CacheMiss.disabled,
           persisted := some (persist
             { fragments := ["2"], outputs := [""], lc := 2,
               compiled := "c d" }) } : CompileOut).st.compiled := by
  have hc : compile rtTrivial (fun _ => "") (fun _ => none) "c@\x7b2\x7d d"
      none {} =
      some { st := { fragments := ["2"], outputs := [""], lc := 2,
                     compiled := "c d" },
             cached := false, miss := some CacheMiss.disabled,
             persisted := some (persist
               { fragments := ["2"], outputs := [""], lc := 2,
                 compiled := "c d" }) } := by decide
  obtain ⟨-, -, out2, h2, hcc, hcompiled, -⟩ :=
    claim_C2_idempotent_cache_hit rtTrivial (fun _ => "") (fun _ => none)
      "c@\x7b2\x7d d" {} _
      ⟨fun st S st1 v h => Option.noConfusion h, fun st S => preserves_refl st⟩
      (by decide) rfl hc
  exact ⟨hc, out2, h2, hcc, hcompiled⟩

end Pyptex
